import Mathlib

/-!
# Verification of the GPTQ layer compressor (`gptq_wrapper.py`)

A shallow embedding, over exact rational arithmetic, of the numerically
meaningful parts of `GPTQWrapper` from
`src/llmcompressor/modifiers/quantization/gptq/utils/gptq_wrapper.py`:

* the Hessian accumulator `add_batch`,
* the activation-ordering permuter `_apply_activation_ordering`,
* the blockwise quantize-and-correct solver and lifecycle of `compress`,
* the buffer release `free`.

Conventions of the embedding:

* Matrices are total functions on `Fin`-indexed coordinates with values in `ℚ`.
  The weight `W : [rows, columns]` is stored column-major, as a map from a
  column index to the column vector, because the algorithm operates on columns.
* Floating point is embedded as exact rational arithmetic.  The only square
  root in the source, `math.sqrt(2 / self.n_samples)` in `add_batch`, is
  immediately squared by the accumulation `H += inp.matmul(inp.t())`, so the
  accumulator is embedded with the exact factor `2 / n`.
* The factorization chain
  `cholesky (H); cholesky_inverse; cholesky (·, upper=True)` has no exact
  rational counterpart (it takes square roots), so it is embedded as an
  abstract parameter `chol3 : Sq c → Option (Sq c)` standing for the outcome
  of the chain on a given matrix: `some Hinv` when `torch.linalg.cholesky`
  succeeds and `none` when it raises.  Theorems that depend on properties of
  the factor state them through the predicate `IsCholInvFactor`.
* The quantization-parameter observer and `fake_quantize` come from the
  external `compressed_tensors` package; they are embedded as the abstract
  record `Observer` holding one quantize-dequantize map per strategy, exactly
  as `compress` consumes them.
-/

/-- A vector with `n` rational entries (one row of activations, or one column
of the weight matrix). -/
abbrev Vec (n : ℕ) := Fin n → ℚ

/-- A `[rows, columns]` matrix stored column-major: a map from the column index
to the column vector. -/
abbrev Cols (r c : ℕ) := Fin c → Vec r

/-- A square `[c, c]` rational matrix (row index first). -/
abbrev Sq (c : ℕ) := Fin c → Fin c → ℚ

/-! ## Hessian accumulator (`add_batch`, lines 64-83) -/

/-- The Hessian-accumulation state of a `GPTQWrapper` session: the buffer `H`
registered in `__init__` together with the running sample count `n_samples`. -/
structure HState (c : ℕ) where
  H : Sq c
  n_samples : ℕ

/-- Session creation (`__init__`, lines 55-62): `H` is zero-initialized and
`n_samples = 0`. -/
def initHState (c : ℕ) : HState c := ⟨fun _ _ => 0, 0⟩

/-- Core of `add_batch` (lines 80-83), after the input has been reshaped to a
2-D `[t, columns]` matrix, given here as the list `X` of its `t` rows, and
after the leading-dimension count `tmp` (here `b`) has been read off:
`H *= n / (n + tmp)`, `n += tmp`, `inp *= sqrt(2 / n)`,
`H += inp.matmul(inp.t())`.  The transposed product satisfies
`(inp · inpᵗ) i j = Σ_{v ∈ X} v i * v j`, and the `sqrt` is squared by the
product, giving the exact factor `2 / n`. -/
def addBatchCore (st : HState c) (b : ℕ) (X : List (Vec c)) : HState c :=
  let n2 := st.n_samples + b
  { H := fun i j =>
      st.H i j * ((st.n_samples : ℚ) / (n2 : ℚ))
        + (2 / (n2 : ℚ)) * ((X.map fun v => v i * v j).sum),
    n_samples := n2 }

/-- A calibration input tensor as `add_batch` receives it for a `nn.Linear`
layer: either 2-D `[t, columns]` or 3-D `[b, t, columns]`. -/
inductive Inp (c : ℕ) where
  | dim2 (t : ℕ) (x : Fin t → Vec c)
  | dim3 (b t : ℕ) (x : Fin b → Fin t → Vec c)

/-- `tmp = inp.shape[0]` (line 73), read after a 2-D input has been
`unsqueeze(0)`-ed to `[1, t, columns]` (lines 71-72): `1` for a 2-D input and
the leading batch dimension `b` for a 3-D input. -/
def tmpOf : Inp c → ℕ
  | .dim2 _ _ => 1
  | .dim3 b _ _ => b

/-- The rows of `inp.reshape((-1, inp.shape[-1]))` (line 78): the token rows of
the input flattened over the leading dimensions.  (The subsequent `inp.t()` is
folded into `addBatchCore`, which consumes the rows directly.) -/
def rowsOf : Inp c → List (Vec c)
  | .dim2 t x => (List.finRange t).map x
  | .dim3 b t x => ((List.finRange b).map fun i => (List.finRange t).map (x i)).flatten

/-- `add_batch` (lines 64-83) for a `nn.Linear` layer. -/
def add_batch (st : HState c) (inp : Inp c) : HState c :=
  addBatchCore st (tmpOf inp) (rowsOf inp)

/-! ## Activation-order permuter (`_apply_activation_ordering`, lines 339-349) -/

/-- The index list of `torch.argsort(key, descending=True)`: the indices
`0..n-1` sorted so that their key values are non-increasing. -/
def argsortDescList (key : Fin n → ℚ) : List (Fin n) :=
  (List.finRange n).insertionSort fun a b => key b ≤ key a

/-- The index list of `torch.argsort(p)` (ascending) applied to an
integer-valued tensor `p`, as in `invperm = torch.argsort(perm)`. -/
def argsortAscList (p : Fin n → Fin n) : List (Fin n) :=
  (List.finRange n).insertionSort fun a b => p a ≤ p b

theorem argsortDescList_perm (key : Fin n → ℚ) :
    List.Perm (argsortDescList key) (List.finRange n) :=
  List.perm_insertionSort _ _

theorem argsortAscList_perm (p : Fin n → Fin n) :
    List.Perm (argsortAscList p) (List.finRange n) :=
  List.perm_insertionSort _ _

theorem argsortDescList_length (key : Fin n → ℚ) :
    (argsortDescList key).length = n := by
  rw [(argsortDescList_perm key).length_eq, List.length_finRange]

theorem argsortAscList_length (p : Fin n → Fin n) :
    (argsortAscList p).length = n := by
  rw [(argsortAscList_perm p).length_eq, List.length_finRange]

/-- Read a length-`n` list of indices as a function `Fin n → Fin n`. -/
def listToFun (l : List (Fin n)) (h : l.length = n) : Fin n → Fin n :=
  fun i => l.get (Fin.cast h.symm i)

/-- `torch.argsort(diag(H), descending=True)` as a function on indices
(line 347). -/
def argsortDesc (key : Fin n → ℚ) : Fin n → Fin n :=
  listToFun (argsortDescList key) (argsortDescList_length key)

/-- `invperm = torch.argsort(perm)` as a function on indices (line 348). -/
def argsortAsc (p : Fin n → Fin n) : Fin n → Fin n :=
  listToFun (argsortAscList p) (argsortAscList_length p)

/-- The result of `_apply_activation_ordering`. -/
structure AOResult (r c : ℕ) where
  Wp : Cols r c
  Hp : Sq c
  perm : Fin c → Fin c
  invperm : Fin c → Fin c

/-- `_apply_activation_ordering` (lines 339-349):
`perm = torch.argsort(torch.diag(H), descending=True)`,
`invperm = torch.argsort(perm)`, returning
`W[:, perm], H[perm][:, perm], perm, invperm`. -/
def applyActivationOrdering (W : Cols r c) (H : Sq c) : AOResult r c :=
  let perm := argsortDesc fun i => H i i
  { Wp := fun k => W (perm k),
    Hp := fun i k => H (perm i) (perm k),
    perm := perm,
    invperm := argsortAsc perm }

theorem listToFun_bijective (l : List (Fin n)) (h : l.length = n)
    (hp : List.Perm l (List.finRange n)) : Function.Bijective (listToFun l h) := by
  have hnd : l.Nodup := hp.nodup_iff.mpr (List.nodup_finRange n)
  have hinj : Function.Injective (listToFun l h) := by
    intro a b hab
    have := List.nodup_iff_injective_get.mp hnd hab
    simpa [Fin.ext_iff] using this
  exact Finite.injective_iff_bijective.mp hinj

theorem argsortDesc_bijective (key : Fin n → ℚ) :
    Function.Bijective (argsortDesc key) :=
  listToFun_bijective _ _ (argsortDescList_perm key)

theorem argsortAsc_bijective (p : Fin n → Fin n) :
    Function.Bijective (argsortAsc p) :=
  listToFun_bijective _ _ (argsortAscList_perm p)

/-- A strictly monotone self-map of `Fin n` that is surjective is the
identity. -/
theorem strictMono_surjective_id {g : Fin n → Fin n} (hm : StrictMono g)
    (hs : Function.Surjective g) : ∀ i, g i = i := by
  intro i
  have := Fin.coe_orderIso_apply (StrictMono.orderIsoOfSurjective g hm hs) i
  rw [StrictMono.coe_orderIsoOfSurjective] at this
  exact Fin.ext this

/-- The composite `p ∘ argsortAsc p` for a bijective `p` is the identity:
sorting the values of a permutation ascending recovers `0, 1, 2, …`. -/
theorem apply_argsortAsc (p : Fin n → Fin n) (hp : Function.Bijective p) :
    ∀ j, p (argsortAsc p j) = j := by
  haveI htot : IsTotal (Fin n) fun a b => p a ≤ p b :=
    ⟨fun a b => le_total (p a) (p b)⟩
  haveI htr : IsTrans (Fin n) fun a b => p a ≤ p b :=
    ⟨fun _ _ _ hab hbc => le_trans hab hbc⟩
  have hsorted : List.Sorted (fun a b => p a ≤ p b) (argsortAscList p) :=
    List.sorted_insertionSort _ (List.finRange n)
  have hmono : StrictMono fun j => p (argsortAsc p j) := by
    intro a b hab
    have hget := List.pairwise_iff_get.mp hsorted
      (Fin.cast (argsortAscList_length p).symm a)
      (Fin.cast (argsortAscList_length p).symm b)
      hab
    have hne : argsortAsc p a ≠ argsortAsc p b :=
      fun he => absurd ((argsortAsc_bijective p).1 he) hab.ne
    exact lt_of_le_of_ne hget fun hpe => hne (hp.1 hpe)
  have hsurj : Function.Surjective fun j => p (argsortAsc p j) :=
    hp.2.comp (argsortAsc_bijective p).2
  exact strictMono_surjective_id hmono hsurj

/-- The other composite: `argsortAsc p ∘ p` is also the identity. -/
theorem argsortAsc_apply (p : Fin n → Fin n) (hp : Function.Bijective p) :
    ∀ i, argsortAsc p (p i) = i :=
  fun i => hp.1 (apply_argsortAsc p hp (p i))


/-! ## Strategy dispatch and the abstract observer -/

/-- The quantization strategies of `compressed_tensors.quantization`
reachable from `compress` (lines 205-261): the three supported ones plus the
remaining enum members, which hit the `raise ValueError` branch. -/
inductive QuantizationStrategy where
  | tensor | channel | group | block | token
deriving DecidableEq

/-- `strategy in (TENSOR, CHANNEL, GROUP)`: the strategies with a quantize
branch in the per-column loop (lines 205-256). -/
def supportedStrategy : QuantizationStrategy → Bool
  | .tensor | .channel | .group => true
  | _ => false

/-- The `actorder` field of the weight quantization arguments:
`None`, `ActivationOrdering.GROUP` or `ActivationOrdering.WEIGHT`. -/
inductive ActOrder where
  | noOrder | group | weight
deriving DecidableEq

/-- The fields of `quantization_scheme.weights` that `compress` reads. -/
structure QArgs where
  strategy : QuantizationStrategy
  group_size : ℕ
  actorder : ActOrder

/-- Modelled from the spec (§4.1): the quantization-parameter observer and the
`fake_quantize` mapping live in the external `compressed_tensors` package, so
only their interface is embedded.  Each field is the composite
"(re)compute scale/zero-point, then quantize-dequantize" exactly as the
per-column loop uses it:

* `fqTensor w` — TENSOR (lines 208-213): quantize with the fixed whole-tensor
  parameters, a pure function of the current column;
* `fqChannel w` — CHANNEL (lines 214-226): `calculate_qparams` on the current
  column followed by `fake_quantize` with the result, again a pure function of
  the current column;
* `fqGroup slice w` — GROUP (lines 227-256): `get_qparams_along_dim` on the
  current group slice of the outer weight (`W[:, g_idx == group_index]`,
  passed as the list of its columns in ascending column order) followed by
  channel-wise `fake_quantize` of the current column.

`scale` and `zero_point` are the observer's parameter buffers as persisted by
the final `update_parameter_data` calls (lines 324-325); their numeric content
is not modelled, only when they are written back. -/
structure Observer (r : ℕ) (α : Type) where
  fqTensor : Vec r → Vec r
  fqChannel : Vec r → Vec r
  fqGroup : List (Vec r) → Vec r → Vec r
  scale : α
  zero_point : α

/-- A per-column quantizer as the scan uses it: the column index, the snapshot
of the outer weight matrix `W` (read by the GROUP branch, line 237), and the
current error-corrected column value. -/
abbrev Quantizer (r c : ℕ) := Fin c → Cols r c → Vec r → Vec r

/-- The columns of `W[:, g_idx == g_idx[i]]` in ascending column order
(line 237). -/
def groupSlice (gidx : Fin c → ℕ) (W : Cols r c) (i : Fin c) : List (Vec r) :=
  ((List.finRange c).filter fun k => gidx k == gidx i).map W

/-- The quantize step of the per-column loop (lines 205-256) for a supported
strategy.  The `block`/`token` cases are unreachable: `compress` raises
before ever invoking them (see `compress`). -/
def strategyQuantizer (obs : Observer r α) (gidx : Fin c → ℕ) :
    QuantizationStrategy → Quantizer r c
  | .tensor => fun _ _ w => obs.fqTensor w
  | .channel => fun _ _ w => obs.fqChannel w
  | .group => fun i Wsnap w => obs.fqGroup (groupSlice gidx Wsnap i) w
  | _ => fun _ _ w => w

/-! ## The blockwise quantize-and-correct scan (lines 186-297) -/

/-- The per-block loop state: the block weight buffer `W1 = W[:, i1:i2]`,
and the accumulators `Q1`, `Err1`, `Losses1` (lines 190-193).  All four are
carried full-width, indexed by global column index; `W1` coincides with the
outer `W` outside the block and the accumulators start at zero. -/
structure InnerSt (r c : ℕ) where
  W1 : Cols r c
  Q1 : Cols r c
  Err1 : Cols r c
  L1 : Cols r c

/-- The outer scan state: the weight matrix `W` being compressed, the running
`Losses` vector (line 173), and — as a specification-only ghost field — the
per-column residuals `Err1[:, i]` of every processed block, which the source
recomputes per block and discards. -/
structure ScanSt (r c : ℕ) where
  W : Cols r c
  Errs : Cols r c
  Losses : Vec r

/-- One iteration of the per-column loop (lines 199-287), at global column
index `i` of the block `[i1, i2)`:

* `w = W1[:, i]`, `d = Hinv1[i, i]`, `q = quantize(w)`;
* `Q1[:, i] = q`; `Losses1[:, i] = (w - q)**2 / d**2`;
* `err1 = (w - q) / d`; `Err1[:, i] = err1`;
* `W1[:, i:] -= err1 ⊗ Hinv1[i, i:]`, multiplied entrywise by
  `W1_nz_mask[:, i:]` when `preserve_zeros` (lines 281-284); a fully-one
  `mask` embeds the unmasked branch.

`Wsnap` is the outer `W`, unchanged during the inner loop, read by the GROUP
quantizer. -/
def qcStep (Qz : Quantizer r c) (Hinv : Sq c) (mask : Cols r c)
    (Wsnap : Cols r c) (i2 : ℕ) (st : InnerSt r c) (i : Fin c) : InnerSt r c :=
  let w := st.W1 i
  let d := Hinv i i
  let q := Qz i Wsnap w
  let err : Vec r := fun x => (w x - q x) / d
  { W1 := fun k => if i ≤ k ∧ (k : ℕ) < i2 then
        (fun x => st.W1 k x - err x * Hinv i k * mask k x) else st.W1 k,
    Q1 := Function.update st.Q1 i q,
    Err1 := Function.update st.Err1 i err,
    L1 := Function.update st.L1 i fun x => (w x - q x) ^ 2 / d ^ 2 }

/-- The global column indices `[a, a + len) ∩ [0, c)`, in increasing order. -/
def colsIdx (c : ℕ) (a len : ℕ) : List (Fin c) :=
  (List.range' a len).filterMap fun m => if h : m < c then some ⟨m, h⟩ else none

/-- One iteration of the blockwise loop (lines 186-297), for the block
starting at column `i1`:

* `i2 = min(i1 + blocksize, columns)`; `W1 = W[:, i1:i2].clone()`;
  `Q1`, `Err1`, `Losses1` start at zero;
* the per-column loop `qcStep` runs over the block columns;
* `W[:, i1:i2] = Q1`; `Losses += sum(Losses1, 1) / 2`;
* `W[:, i2:] -= Err1.matmul(Hinv[i1:i2, i2:])`, multiplied entrywise by
  `W_nz_mask[:, i2:]` when `preserve_zeros` (lines 289-297). -/
def blockStep (Qz : Quantizer r c) (Hinv : Sq c) (mask : Cols r c)
    (bs : ℕ) (st : ScanSt r c) (i1 : ℕ) : ScanSt r c :=
  let i2 := min (i1 + bs) c
  let B := colsIdx c i1 (i2 - i1)
  let inner := B.foldl (qcStep Qz Hinv mask st.W i2)
    ⟨st.W, fun _ _ => 0, fun _ _ => 0, fun _ _ => 0⟩
  { W := fun k =>
      if (k : ℕ) < i1 then st.W k
      else if (k : ℕ) < i2 then inner.Q1 k
      else fun x => st.W k x - ((B.map fun i => inner.Err1 i x * Hinv i k).sum) * mask k x,
    Errs := fun k => if i1 ≤ (k : ℕ) ∧ (k : ℕ) < i2 then inner.Err1 k else st.Errs k,
    Losses := fun x => st.Losses x + ((B.map fun i => inner.L1 i x).sum) / 2 }

/-- The block starts `range(0, columns, blocksize)` (line 186). -/
def blockStarts (c bs : ℕ) : List ℕ :=
  List.range' 0 ((c + bs - 1) / bs) bs

/-- The full blockwise scan of `compress` (lines 186-297) on an already
prepared weight matrix `W0`, with precomputed `Hinv`, sparsity mask and
per-column quantizer. -/
def gptqScan (Qz : Quantizer r c) (Hinv : Sq c) (mask : Cols r c)
    (bs : ℕ) (W0 : Cols r c) : ScanSt r c :=
  (blockStarts c bs).foldl (blockStep Qz Hinv mask bs)
    ⟨W0, fun _ _ => 0, fun _ => 0⟩

/-! ## Preparation stages of `compress` (lines 159-183) -/

/-- The number of exactly-zero entries of `W` (the exact-arithmetic embedding
of near-zero counting with `torch.isclose`). -/
def countZeros (W : Cols r c) : ℕ :=
  ∑ k : Fin c, ∑ x : Fin r, if W k x = 0 then 1 else 0

/-- Modelled from the spec: `tensor_sparsity` lives in
`llmcompressor.pytorch.utils.helpers`, which is not part of the provided
sources; per §3 of the spec it is the layer's sparsity ratio, i.e. the
fraction of (near-)zero entries of `W` (line 160). -/
def sparsityOf (W : Cols r c) : ℚ :=
  (countZeros W : ℚ) / ((r : ℚ) * (c : ℚ))

/-- The sparsity mask (lines 159-166): when the sparsity ratio reaches the
threshold, `W_nz_mask = (~isclose(W, 0)).float()`, i.e. `1` at nonzero
entries and `0` at zero entries; otherwise no masking (`None`, embedded as
the all-one mask, which makes the masked and unmasked update branches of the
scan coincide).  The threshold `SPARSITY_THRESHOLD` is a module constant of
`llmcompressor.modifiers.utils`, not part of the provided sources, and is
passed here as the parameter `thr`. -/
def nzMask (thr : ℚ) (W : Cols r c) : Cols r c :=
  if thr ≤ sparsityOf W then
    (fun k x => if W k x = 0 then 0 else 1)
  else fun _ _ => 1

/-- Dead-column masking on `H` (lines 168-170): `dead = torch.diag(H) == 0;`
`H[dead, dead] = 1` sets the diagonal entry of every dead column to `1`. -/
def deadMaskH (H : Sq c) : Sq c :=
  fun i k => if i = k ∧ H k k = 0 then 1 else H i k

/-- Dead-column masking on `W` (line 171): `W[:, dead] = 0`. -/
def deadMaskW (H : Sq c) (W : Cols r c) : Cols r c :=
  fun k => if H k k = 0 then (fun _ => 0) else W k

/-- `damp = percdamp * torch.mean(torch.diag(H))` (line 177). -/
def dampingOf (percdamp : ℚ) (H : Sq c) : ℚ :=
  percdamp * ((∑ i : Fin c, H i i) / (c : ℚ))

/-- `H[diag, diag] += damp` (lines 177-179). -/
def dampH (percdamp : ℚ) (H : Sq c) : Sq c :=
  fun i k => if i = k then H i k + dampingOf percdamp H else H i k

/-- What the factorization chain of lines 180-183 guarantees about its result
when `torch.linalg.cholesky` succeeds:
`Hinv = cholesky(cholesky_inverse(cholesky(A)), upper=True)` is upper
triangular with nonzero diagonal, and `Hinvᵗ · Hinv = A⁻¹`, stated as the
two-sided inverse identities. -/
def gramUT (U : Sq c) : Sq c := fun m k => ∑ l : Fin c, U l m * U l k

def IsCholInvFactor (A U : Sq c) : Prop :=
  (∀ i k : Fin c, (k : ℕ) < (i : ℕ) → U i k = 0) ∧
  (∀ i : Fin c, U i i ≠ 0) ∧
  (∀ i k : Fin c,
    (∑ m : Fin c, A i m * gramUT U m k) = if i = k then 1 else 0) ∧
  (∀ i k : Fin c,
    (∑ m : Fin c, gramUT U i m * A m k) = if i = k then 1 else 0)

/-! ## `compress` and the session lifecycle -/

/-- The errors `compress`/`free` can raise:

* `attributeError` — accessing the deleted buffer `self.H` after `free`
  (`delattr`, line 336), or `delattr` on an already released session;
* `choleskyFailure` — `torch.linalg.cholesky` raised on a matrix that is not
  positive definite (line 180);
* `unsupportedStrategy` — the `raise ValueError` of lines 257-261. -/
inductive GPTQError where
  | attributeError | choleskyFailure | unsupportedStrategy
deriving DecidableEq

/-- The persistent state of a `GPTQWrapper` and its layer that `compress` and
`free` read and write: the layer weight (column-major), the persisted
parameters `weight_scale`, `weight_zero_point` and `weight_g_idx`, the
Hessian buffer `H` (`none` once released by `free`), and `n_samples`.
The scale/zero-point payload type `α` is abstract, matching the abstract
observer. -/
structure WrapperState (r c : ℕ) (α : Type) where
  weight : Cols r c
  weight_scale : α
  weight_zero_point : α
  weight_g_idx : Option (Fin c → ℕ)
  H : Option (Sq c)
  n_samples : ℕ

/-- `compress` (lines 85-330) for a `nn.Linear` layer, returning the updated
layer/session state together with the raised error, if any.

Faithfulness notes:

* A layer without quantization configuration (`qa = none`) is skipped before
  anything else is touched (lines 99-102).
* `self.H` is read for the first time at line 169; on a released session this
  raises `AttributeError` (embedded: `H = none`).
* The `raise ValueError` for an unsupported strategy sits in the per-column
  loop (lines 257-261); it fires on the first column of the first block, i.e.
  exactly when the strategy is unsupported and the layer has at least one
  column, after `self.H` has already been overwritten with `Hinv`
  (lines 180-183).  The embedding hoists the strategy test out of the loop
  with exactly that firing condition.
* On success the cloned, scanned weight is written back, and the observer's
  scale/zero-point are persisted (lines 316-325); `weight_g_idx` is persisted
  only in the GROUP-actorder case (line 314).  On any error path the layer
  parameters are untouched: only `self.H` retains its in-place mutations. -/
def compress (thr : ℚ) (obs : Observer r α) (qa : Option QArgs) (bs : ℕ)
    (percdamp : ℚ) (chol3 : Sq c → Option (Sq c)) (ws : WrapperState r c α) :
    WrapperState r c α × Option GPTQError :=
  match qa with
  | none => (ws, none)
  | some args =>
    match ws.H with
    | none => (ws, some .attributeError)
    | some H0 =>
      -- W = self.layer.weight.data.clone() (line 111)
      let W0 := ws.weight
      -- g_idx = arange(columns) // group_size (lines 127-130)
      let g0 : Fin c → ℕ := fun k => (k : ℕ) / args.group_size
      let aord := applyActivationOrdering W0 H0
      -- lines 125-153: activation ordering applies only under GROUP strategy
      let permuted := args.strategy = QuantizationStrategy.group ∧
        (args.actorder = ActOrder.group ∨ args.actorder = ActOrder.weight)
      let Wp := if permuted then aord.Wp else W0
      let Hp := if permuted then aord.Hp else H0
      -- actorder WEIGHT permutes g_idx (line 145); GROUP keeps the identity
      let g1 := if args.strategy = QuantizationStrategy.group ∧
          args.actorder = ActOrder.weight then (fun k => g0 (aord.perm k)) else g0
      -- sparsity mask (lines 159-166), computed on the (permuted) W
      let mask := nzMask thr Wp
      -- dead-column masking (lines 168-171)
      let H1 := deadMaskH Hp
      let W1 := deadMaskW Hp Wp
      -- damping (lines 176-179)
      let H2 := dampH percdamp H1
      -- factorization chain (lines 180-183)
      match chol3 H2 with
      | none => ({ ws with H := some H2 }, some .choleskyFailure)
      | some Hinv =>
        if supportedStrategy args.strategy = false ∧ 0 < c then
          ({ ws with H := some Hinv }, some .unsupportedStrategy)
        else
          let scanRes := gptqScan (strategyQuantizer obs g1 args.strategy)
            Hinv mask bs W1
          -- un-permutation (lines 303-314)
          let Wfinal := if permuted then (fun j => scanRes.W (aord.invperm j))
            else scanRes.W
          let gROUPord := args.strategy = QuantizationStrategy.group ∧
            args.actorder = ActOrder.group
          let gFinal := fun j => g1 (aord.invperm j)
          -- commit (lines 316-325)
          ({ weight := Wfinal,
             weight_scale := obs.scale,
             weight_zero_point := obs.zero_point,
             weight_g_idx := if gROUPord then some gFinal else ws.weight_g_idx,
             H := some Hinv,
             n_samples := ws.n_samples }, none)

/-- `free` (lines 332-337): `delattr(self, "H")`, which raises
`AttributeError` when the buffer is already gone. -/
def free (ws : WrapperState r c α) : WrapperState r c α × Option GPTQError :=
  match ws.H with
  | some _ => ({ ws with H := none }, none)
  | none => (ws, some .attributeError)

/-! ## The canonical column-at-a-time scan

The blockwise scan is proved equal, for any positive block size, to the
following canonical scan that processes one column at a time and propagates
its error to all later columns immediately — provided the per-column
quantizer does not read the outer-weight snapshot (TENSOR and CHANNEL). -/

/-- The canonical scan state: the current matrix (quantized at processed
columns, error-corrected at the rest) and the per-column residuals. -/
structure CanonSt (r c : ℕ) where
  V : Cols r c
  E : Cols r c

/-- Process one column of the canonical scan: quantize column `i`, record its
residual, and propagate the masked correction to every later column. -/
def canonStep (f : Fin c → Vec r → Vec r) (Hinv : Sq c) (mask : Cols r c)
    (st : CanonSt r c) (i : Fin c) : CanonSt r c :=
  let w := st.V i
  let d := Hinv i i
  let q := f i w
  let err : Vec r := fun x => (w x - q x) / d
  { V := fun k => if k = i then q
      else if i < k then (fun x => st.V k x - err x * Hinv i k * mask k x)
      else st.V k,
    E := Function.update st.E i err }

/-- Fold `canonStep` over a list of column indices. -/
def canonRun (f : Fin c → Vec r → Vec r) (Hinv : Sq c) (mask : Cols r c)
    (l : List (Fin c)) (st : CanonSt r c) : CanonSt r c :=
  l.foldl (canonStep f Hinv mask) st

/-- The canonical scan over all columns. -/
def canonScan (f : Fin c → Vec r → Vec r) (Hinv : Sq c) (mask : Cols r c)
    (W0 : Cols r c) : CanonSt r c :=
  canonRun f Hinv mask (colsIdx c 0 c) ⟨W0, fun _ _ => 0⟩

/-! ### Small list helpers -/

theorem list_sum_map_zero {β : Type} {l : List β} {g : β → ℚ}
    (h : ∀ i ∈ l, g i = 0) : (l.map g).sum = 0 := by
  induction l with
  | nil => rfl
  | cons a t ih =>
    simp only [List.map_cons, List.sum_cons, h a (List.mem_cons_self a t),
      ih fun i hi => h i (List.mem_cons_of_mem a hi), add_zero]

theorem list_sum_map_mul_right {β : Type} (l : List β) (g : β → ℚ) (m : ℚ) :
    (l.map fun i => g i * m).sum = (l.map g).sum * m := by
  induction l with
  | nil => simp
  | cons a t ih => simp [ih, add_mul]

/-! ### `colsIdx` structure lemmas -/

theorem colsIdx_zero (a : ℕ) : colsIdx c a 0 = [] := rfl

theorem colsIdx_succ (a len : ℕ) (h : a < c) :
    colsIdx c a (len + 1) = ⟨a, h⟩ :: colsIdx c (a + 1) len := by
  simp [colsIdx, List.range'_succ, h]

theorem colsIdx_nil (a len : ℕ) (h : c ≤ a) : colsIdx c a len = [] := by
  induction len generalizing a with
  | zero => rfl
  | succ m ih =>
    simp only [colsIdx, List.range'_succ, List.filterMap_cons]
    rw [dif_neg (by omega)]
    exact ih (a + 1) (by omega)

theorem colsIdx_append (a m k : ℕ) :
    colsIdx c a (m + k) = colsIdx c a m ++ colsIdx c (a + m) k := by
  rw [colsIdx, colsIdx, colsIdx, ← List.filterMap_append, Nat.add_comm m k,
    List.range'_append_1]

theorem mem_colsIdx {a len : ℕ} {i : Fin c} (h : i ∈ colsIdx c a len) :
    a ≤ (i : ℕ) ∧ (i : ℕ) < a + len := by
  obtain ⟨m, hm, he⟩ := List.mem_filterMap.mp h
  have hmr := List.mem_range'_1.mp hm
  by_cases hmc : m < c
  · rw [dif_pos hmc] at he
    cases he
    exact ⟨hmr.1, hmr.2⟩
  · rw [dif_neg hmc] at he
    cases he

/-! ### Stability of the canonical scan below the processed range -/

theorem canonStep_V_lower (f : Fin c → Vec r → Vec r) (st : CanonSt r c)
    (i k : Fin c) (h : k < i) : (canonStep f Hinv mask st i).V k = st.V k := by
  simp only [canonStep]
  rw [if_neg (by intro he; exact absurd he (Fin.ne_of_lt h)),
    if_neg (by intro hlt; exact absurd (lt_trans h hlt) (lt_irrefl k))]

theorem canonStep_E_lower (f : Fin c → Vec r → Vec r) (st : CanonSt r c)
    (i k : Fin c) (h : k ≠ i) : (canonStep f Hinv mask st i).E k = st.E k := by
  simp only [canonStep]
  exact Function.update_noteq h _ _

theorem canonRun_V_lower (f : Fin c → Vec r → Vec r) (l : List (Fin c))
    (st : CanonSt r c) (j : ℕ) (hl : ∀ i ∈ l, j ≤ (i : ℕ)) (k : Fin c)
    (hk : (k : ℕ) < j) : (canonRun f Hinv mask l st).V k = st.V k := by
  induction l generalizing st with
  | nil => rfl
  | cons i t ih =>
    show (canonRun f Hinv mask t (canonStep f Hinv mask st i)).V k = st.V k
    rw [ih (canonStep f Hinv mask st i) fun x hx => hl x (List.mem_cons_of_mem i hx)]
    exact canonStep_V_lower f st i k
      (by have := hl i (List.mem_cons_self i t); exact Fin.lt_def.mpr (by omega))

theorem canonRun_E_lower (f : Fin c → Vec r → Vec r) (l : List (Fin c))
    (st : CanonSt r c) (j : ℕ) (hl : ∀ i ∈ l, j ≤ (i : ℕ)) (k : Fin c)
    (hk : (k : ℕ) < j) : (canonRun f Hinv mask l st).E k = st.E k := by
  induction l generalizing st with
  | nil => rfl
  | cons i t ih =>
    show (canonRun f Hinv mask t (canonStep f Hinv mask st i)).E k = st.E k
    rw [ih (canonStep f Hinv mask st i) fun x hx => hl x (List.mem_cons_of_mem i hx)]
    exact canonStep_E_lower f st i k
      (by have := hl i (List.mem_cons_self i t); intro he; rw [he] at hk; omega)

/-! ### The inner-loop invariant tying the blockwise scan to the canonical scan -/

theorem list_map_sum_update {γ δ : Type} [DecidableEq γ] (l : List γ) (ia : γ)
    (E : γ → δ) (v : δ) (T : γ → δ → ℚ) (hne : ∀ i ∈ l, i ≠ ia) :
    (l.map fun i => T i (Function.update E ia v i)).sum
      = (l.map fun i => T i (E i)).sum := by
  induction l with
  | nil => rfl
  | cons j t ih =>
    simp only [List.map_cons, List.sum_cons]
    rw [Function.update_noteq (hne j (List.mem_cons_self j t)),
      ih fun i hi => hne i (List.mem_cons_of_mem j hi)]

/-- Invariant of the per-column loop, at position `a` inside the block
`[i1, i2)`, relating the loop state `inner` to the canonical state `C`
reached after canonically processing all columns `< a`:

* block columns not yet processed carry the canonical current value;
* processed block columns have their canonical quantized value in `Q1` and
  canonical residual in `Err1`;
* unprocessed `Err1` columns are still zero;
* beyond the block, the outer snapshot differs from the canonical value by
  exactly the corrections this block has accumulated so far. -/
def ScanInv (Hinv : Sq c) (mask Wsnap : Cols r c) (i1 i2 a : ℕ)
    (inner : InnerSt r c) (C : CanonSt r c) : Prop :=
  (∀ k : Fin c, a ≤ (k : ℕ) → (k : ℕ) < i2 → inner.W1 k = C.V k) ∧
  (∀ k : Fin c, i1 ≤ (k : ℕ) → (k : ℕ) < a → inner.Q1 k = C.V k) ∧
  (∀ k : Fin c, i1 ≤ (k : ℕ) → (k : ℕ) < a → inner.Err1 k = C.E k) ∧
  (∀ k : Fin c, a ≤ (k : ℕ) → inner.Err1 k = fun _ => 0) ∧
  (∀ k : Fin c, i2 ≤ (k : ℕ) → ∀ x,
    Wsnap k x = C.V k x +
      ((colsIdx c i1 (i2 - i1)).map fun i =>
        inner.Err1 i x * Hinv i k * mask k x).sum)

theorem scanInv_step (Qz : Quantizer r c) (f : Fin c → Vec r → Vec r)
    (Hinv : Sq c) (mask Wsnap : Cols r c)
    (hQ : ∀ i snap w, Qz i snap w = f i w)
    (i1 i2 a : ℕ) (hac : a < c) (h1 : i1 ≤ a) (h2 : a < i2) (h3 : i2 ≤ c)
    (inner : InnerSt r c) (C : CanonSt r c)
    (hInv : ScanInv Hinv mask Wsnap i1 i2 a inner C) :
    ScanInv Hinv mask Wsnap i1 i2 (a + 1)
      (qcStep Qz Hinv mask Wsnap i2 inner ⟨a, hac⟩)
      (canonStep f Hinv mask C ⟨a, hac⟩) := by
  obtain ⟨IW, IQ, IE, IZ, IS⟩ := hInv
  have hw : inner.W1 ⟨a, hac⟩ = C.V ⟨a, hac⟩ := IW _ (le_refl a) h2
  have hq : Qz ⟨a, hac⟩ Wsnap (inner.W1 ⟨a, hac⟩) = f ⟨a, hac⟩ (C.V ⟨a, hac⟩) := by
    rw [hw]; exact hQ _ Wsnap _
  refine ⟨?_, ?_, ?_, ?_, ?_⟩
  · -- unprocessed block columns carry the canonical current value
    intro k hk1 hk2
    have hkv : a < (k : ℕ) := by omega
    simp only [qcStep, canonStep]
    rw [if_pos ⟨(by omega : a ≤ (k : ℕ)), hk2⟩,
      if_neg (fun (he : k = ⟨a, hac⟩) =>
        absurd hk1 (by rw [he]; exact Nat.not_succ_le_self a)),
      if_pos (show (⟨a, hac⟩ : Fin c) < k from hkv)]
    funext x
    rw [hq, hw, IW k (by omega) hk2]
  · -- processed block columns hold the canonical quantized value
    intro k hk1 hk2
    simp only [qcStep, canonStep]
    by_cases hka : k = (⟨a, hac⟩ : Fin c)
    · subst hka
      rw [Function.update_same, if_pos rfl, hq]
    · have hkv : (k : ℕ) ≠ a := fun he => hka (Fin.ext he)
      rw [Function.update_noteq hka, if_neg hka,
        if_neg (fun (hlt : (⟨a, hac⟩ : Fin c) < k) =>
          absurd (show a < (k : ℕ) from hlt) (by omega))]
      exact IQ k hk1 (by omega)
  · -- processed block columns hold the canonical residual
    intro k hk1 hk2
    simp only [qcStep, canonStep]
    by_cases hka : k = (⟨a, hac⟩ : Fin c)
    · subst hka
      rw [Function.update_same, Function.update_same]
      funext x
      rw [hq, hw]
    · rw [Function.update_noteq hka, Function.update_noteq hka]
      have hkv : (k : ℕ) ≠ a := fun he => hka (Fin.ext he)
      exact IE k hk1 (by omega)
  · -- residuals of still-unprocessed columns are zero
    intro k hk
    simp only [qcStep]
    rw [Function.update_noteq (fun (he : k = ⟨a, hac⟩) =>
      absurd hk (by rw [he]; exact Nat.not_succ_le_self a))]
    exact IZ k (by omega)
  · -- beyond the block: snapshot = canonical value + accumulated corrections
    intro k hk x
    have hBsplit : colsIdx c i1 (i2 - i1) =
        colsIdx c i1 (a - i1) ++ ⟨a, hac⟩ :: colsIdx c (a + 1) (i2 - a - 1) := by
      have e1 : i2 - i1 = (a - i1) + (i2 - a) := by omega
      have e2 : i1 + (a - i1) = a := by omega
      have e4 := colsIdx_succ (c := c) a (i2 - a - 1) hac
      have e5 : i2 - a - 1 + 1 = i2 - a := by omega
      rw [e5] at e4
      rw [e1, colsIdx_append, e2, e4]
    have hka : (⟨a, hac⟩ : Fin c) < k := show a < (k : ℕ) by omega
    have hIS := IS k (by omega) x
    simp only [qcStep, canonStep]
    rw [if_neg (Fin.ne_of_gt hka), if_pos hka]
    rw [hBsplit, List.map_append, List.sum_append, List.map_cons, List.sum_cons] at hIS ⊢
    rw [Function.update_same]
    rw [list_map_sum_update (colsIdx c i1 (a - i1)) ⟨a, hac⟩ inner.Err1 _
      (fun i d => d x * Hinv i k * mask k x)
      (fun i hi => fun he => by
        have hmem := mem_colsIdx hi
        rw [he] at hmem
        exact absurd hmem.2 (by simp only [not_lt]; omega))]
    rw [list_map_sum_update (colsIdx c (a + 1) (i2 - a - 1)) ⟨a, hac⟩ inner.Err1 _
      (fun i d => d x * Hinv i k * mask k x)
      (fun i hi => fun he => by
        have hmem := mem_colsIdx hi
        rw [he] at hmem
        exact absurd hmem.1 (by simp only [not_le]; omega))]
    rw [IZ ⟨a, hac⟩ (le_refl a)] at hIS
    simp only [zero_mul] at hIS
    rw [hIS, hq, hw]
    ring

theorem innerLoop_inv (Qz : Quantizer r c) (f : Fin c → Vec r → Vec r)
    (Hinv : Sq c) (mask Wsnap : Cols r c)
    (hQ : ∀ i snap w, Qz i snap w = f i w) (i1 i2 : ℕ) :
    ∀ (len a : ℕ) (inner : InnerSt r c) (C : CanonSt r c),
    i1 ≤ a → a + len = i2 → i2 ≤ c →
    ScanInv Hinv mask Wsnap i1 i2 a inner C →
    ScanInv Hinv mask Wsnap i1 i2 i2
      ((colsIdx c a len).foldl (qcStep Qz Hinv mask Wsnap i2) inner)
      (canonRun f Hinv mask (colsIdx c a len) C) := by
  intro len
  induction len with
  | zero =>
    intro a inner C ha1 ha2 hc hInv
    rw [colsIdx_zero]
    have : a = i2 := by omega
    subst this
    exact hInv
  | succ m ih =>
    intro a inner C ha1 ha2 hc hInv
    have hac : a < c := by omega
    rw [colsIdx_succ a m hac]
    show ScanInv Hinv mask Wsnap i1 i2 i2
      ((colsIdx c (a + 1) m).foldl (qcStep Qz Hinv mask Wsnap i2)
        (qcStep Qz Hinv mask Wsnap i2 inner ⟨a, hac⟩))
      (canonRun f Hinv mask (colsIdx c (a + 1) m)
        (canonStep f Hinv mask C ⟨a, hac⟩))
    exact ih (a + 1) _ _ (by omega) (by omega) hc
      (scanInv_step Qz f Hinv mask Wsnap hQ i1 i2 a hac ha1 (by omega) hc inner C hInv)

theorem blockStep_inv (Qz : Quantizer r c) (f : Fin c → Vec r → Vec r)
    (Hinv : Sq c) (mask : Cols r c) (bs : ℕ)
    (hQ : ∀ i snap w, Qz i snap w = f i w)
    (st : ScanSt r c) (C : CanonSt r c) (i1 : ℕ) (hi1 : i1 ≤ c)
    (hW : ∀ k, st.W k = C.V k)
    (hE : ∀ k : Fin c, (k : ℕ) < i1 → st.Errs k = C.E k) :
    (∀ k, (blockStep Qz Hinv mask bs st i1).W k =
      (canonRun f Hinv mask (colsIdx c i1 (min (i1 + bs) c - i1)) C).V k) ∧
    (∀ k : Fin c, (k : ℕ) < min (i1 + bs) c →
      (blockStep Qz Hinv mask bs st i1).Errs k =
      (canonRun f Hinv mask (colsIdx c i1 (min (i1 + bs) c - i1)) C).E k) := by
  have hi2c : min (i1 + bs) c ≤ c := Nat.min_le_right _ _
  have hi12 : i1 ≤ min (i1 + bs) c := le_min (Nat.le_add_right _ _) hi1
  have hInit : ScanInv Hinv mask st.W i1 (min (i1 + bs) c) i1
      ⟨st.W, fun _ _ => 0, fun _ _ => 0, fun _ _ => 0⟩ C := by
    refine ⟨fun k _ _ => hW k, fun k hk1 hk2 => absurd hk2 (by omega),
      fun k hk1 hk2 => absurd hk2 (by omega), fun k _ => rfl, fun k hk x => ?_⟩
    rw [hW k, list_sum_map_zero fun i _ => by simp, add_zero]
  have hFin := innerLoop_inv Qz f Hinv mask st.W hQ i1 (min (i1 + bs) c)
    (min (i1 + bs) c - i1) i1 ⟨st.W, fun _ _ => 0, fun _ _ => 0, fun _ _ => 0⟩ C
    (le_refl i1) (by omega) hi2c hInit
  obtain ⟨IW, IQ, IE, IZ, IS⟩ := hFin
  have hmem : ∀ i ∈ colsIdx c i1 (min (i1 + bs) c - i1), i1 ≤ (i : ℕ) :=
    fun i hi => (mem_colsIdx hi).1
  constructor
  · intro k
    by_cases hk1 : (k : ℕ) < i1
    · rw [show (blockStep Qz Hinv mask bs st i1).W k = st.W k from if_pos hk1]
      rw [canonRun_V_lower f _ C i1 hmem k hk1, hW k]
    · by_cases hk2 : (k : ℕ) < min (i1 + bs) c
      · rw [show (blockStep Qz Hinv mask bs st i1).W k = _ from
          by simp only [blockStep]; rw [if_neg hk1, if_pos hk2]]
        exact IQ k (by omega) hk2
      · rw [show (blockStep Qz Hinv mask bs st i1).W k = _ from
          by simp only [blockStep]; rw [if_neg hk1, if_neg hk2]]
        funext x
        have hIS := IS k (by omega) x
        rw [list_sum_map_mul_right] at hIS
        rw [hIS]
        ring
  · intro k hk2
    by_cases hk1 : (k : ℕ) < i1
    · rw [show (blockStep Qz Hinv mask bs st i1).Errs k = st.Errs k from
        by simp only [blockStep]; rw [if_neg (by omega)]]
      rw [canonRun_E_lower f _ C i1 hmem k hk1]
      exact hE k hk1
    · rw [show (blockStep Qz Hinv mask bs st i1).Errs k = _ from
        by simp only [blockStep]; rw [if_pos ⟨by omega, hk2⟩]]
      exact IE k (by omega) hk2

theorem canonRun_append (f : Fin c → Vec r → Vec r) (Hinv : Sq c)
    (mask : Cols r c) (l1 l2 : List (Fin c)) (st : CanonSt r c) :
    canonRun f Hinv mask (l1 ++ l2) st
      = canonRun f Hinv mask l2 (canonRun f Hinv mask l1 st) :=
  List.foldl_append _ _ _ _

theorem blocksFold_inv (Qz : Quantizer r c) (f : Fin c → Vec r → Vec r)
    (Hinv : Sq c) (mask : Cols r c) (bs : ℕ) (C0 : CanonSt r c)
    (hQ : ∀ i snap w, Qz i snap w = f i w) :
    ∀ (K s : ℕ) (st : ScanSt r c),
    (∀ k, st.W k = (canonRun f Hinv mask (colsIdx c 0 (min s c)) C0).V k) →
    (∀ k : Fin c, (k : ℕ) < min s c →
      st.Errs k = (canonRun f Hinv mask (colsIdx c 0 (min s c)) C0).E k) →
    (∀ k, ((List.range' s K bs).foldl (blockStep Qz Hinv mask bs) st).W k =
      (canonRun f Hinv mask (colsIdx c 0 (min (s + K * bs) c)) C0).V k) ∧
    (∀ k : Fin c, (k : ℕ) < min (s + K * bs) c →
      ((List.range' s K bs).foldl (blockStep Qz Hinv mask bs) st).Errs k =
      (canonRun f Hinv mask (colsIdx c 0 (min (s + K * bs) c)) C0).E k) := by
  intro K
  induction K with
  | zero =>
    intro s st hW hE
    rw [show s + 0 * bs = s by omega]
    exact ⟨hW, hE⟩
  | succ m ih =>
    intro s st hW hE
    rw [List.range'_succ]
    show (∀ k, ((List.range' (s + bs) m bs).foldl (blockStep Qz Hinv mask bs)
        (blockStep Qz Hinv mask bs st s)).W k = _) ∧ _
    by_cases hsc : c ≤ s
    · -- the block starting at or past `c` is a no-op on `W` and `Errs`
      have hmin1 : min s c = c := by omega
      have hmin2 : min (s + bs) c = c := by omega
      have hB : colsIdx c s (min (s + bs) c - s) = [] := by
        rw [hmin2, show c - s = 0 by omega, colsIdx_zero]
      have hW1 : ∀ k, (blockStep Qz Hinv mask bs st s).W k = st.W k := by
        intro k
        simp only [blockStep]
        rw [if_pos (by omega : (k : ℕ) < s)]
      have hE1 : ∀ k : Fin c, (blockStep Qz Hinv mask bs st s).Errs k = st.Errs k := by
        intro k
        simp only [blockStep]
        rw [if_neg (by omega)]
      have hres := ih (s + bs) (blockStep Qz Hinv mask bs st s)
        (fun k => by rw [hW1 k, hmin2, hW k, hmin1])
        (fun k hk => by rw [hE1 k, hmin2]; rw [hmin1] at hE; exact hE k (by omega))
      rw [show s + (m + 1) * bs = s + bs + m * bs by ring]
      exact hres
    · -- a real block: apply the block invariant
      have hsc2 : s < c := by omega
      have hmin1 : min s c = s := by omega
      have hstep := blockStep_inv Qz f Hinv mask bs hQ st
        (canonRun f Hinv mask (colsIdx c 0 s) C0) s (by omega)
        (fun k => by rw [hW k, hmin1]) (fun k hk => by
          rw [hmin1] at hE; exact hE k (by omega))
      have hsplit : colsIdx c 0 (min (s + bs) c) =
          colsIdx c 0 s ++ colsIdx c s (min (s + bs) c - s) := by
        have e1 : min (s + bs) c = s + (min (s + bs) c - s) := by omega
        rw [e1, colsIdx_append]
        rw [← e1, show (0 : ℕ) + s = s by omega]
      have hres := ih (s + bs) (blockStep Qz Hinv mask bs st s)
        (fun k => by rw [hstep.1 k, hsplit, canonRun_append])
        (fun k hk => by rw [hstep.2 k (by omega), hsplit, canonRun_append])
      rw [show s + (m + 1) * bs = s + bs + m * bs by ring]
      exact hres

theorem blockStarts_coverage (hbs : 0 < bs) : c ≤ ((c + bs - 1) / bs) * bs := by
  have h1 : bs * ((c + bs - 1) / bs) + (c + bs - 1) % bs = c + bs - 1 :=
    Nat.div_add_mod _ _
  have h2 : (c + bs - 1) % bs < bs := Nat.mod_lt _ hbs
  have h3 : ((c + bs - 1) / bs) * bs = bs * ((c + bs - 1) / bs) := Nat.mul_comm _ _
  omega

/-- The blockwise scan with any positive block size equals the canonical
column-at-a-time scan, provided the per-column quantizer ignores the
outer-weight snapshot. -/
theorem gptqScan_eq_canon (Qz : Quantizer r c) (f : Fin c → Vec r → Vec r)
    (Hinv : Sq c) (mask : Cols r c) (bs : ℕ) (W0 : Cols r c)
    (hbs : 0 < bs) (hQ : ∀ i snap w, Qz i snap w = f i w) :
    (∀ k, (gptqScan Qz Hinv mask bs W0).W k
      = (canonScan f Hinv mask W0).V k) ∧
    (∀ k, (gptqScan Qz Hinv mask bs W0).Errs k
      = (canonScan f Hinv mask W0).E k) := by
  have hcov : min (0 + ((c + bs - 1) / bs) * bs) c = c := by
    have := blockStarts_coverage (c := c) hbs
    omega
  have h0 : min 0 c = 0 := by omega
  have hres := blocksFold_inv Qz f Hinv mask bs ⟨W0, fun _ _ => 0⟩ hQ
    ((c + bs - 1) / bs) 0 ⟨W0, fun _ _ => 0, fun _ => 0⟩
    (fun k => by rw [h0, colsIdx_zero]; rfl)
    (fun k hk => by rw [h0] at hk; omega)
  rw [hcov] at hres
  refine ⟨fun k => ?_, fun k => hres.2 k k.isLt⟩
  exact hres.1 k

theorem gptqScan_W_blocksize_inv (Qz : Quantizer r c) (Hinv : Sq c)
    (mask : Cols r c) (bs1 bs2 : ℕ) (W0 : Cols r c)
    (h1 : 0 < bs1) (h2 : 0 < bs2)
    (hQ : ∀ i s1 s2 w, Qz i s1 w = Qz i s2 w) :
    (gptqScan Qz Hinv mask bs1 W0).W = (gptqScan Qz Hinv mask bs2 W0).W := by
  have hf : ∀ i snap w, Qz i snap w = (fun i w => Qz i (fun _ _ => 0) w) i w :=
    fun i snap w => hQ i snap _ w
  funext k
  rw [(gptqScan_eq_canon Qz _ Hinv mask bs1 W0 h1 hf).1 k,
      (gptqScan_eq_canon Qz _ Hinv mask bs2 W0 h2 hf).1 k]

/-- C1 (amended): block-size invariance of `compress` for the TENSOR and
CHANNEL strategies, whose per-column quantizer depends only on the current
column.  Running with `blocksize = columns` (one block) gives exactly the
same result as any positive block size.  (For GROUP the claim fails; see the
counterexample.) -/
theorem C1_blocksize_invariance_tensor_channel {r c : ℕ} {α : Type}
    (thr : ℚ) (obs : Observer r α) (args : QArgs) (bs : ℕ) (percdamp : ℚ)
    (chol3 : Sq c → Option (Sq c)) (ws : WrapperState r c α)
    (hstrat : args.strategy = QuantizationStrategy.tensor ∨
      args.strategy = QuantizationStrategy.channel)
    (hbs : 0 < bs) (hc : 0 < c) :
    compress thr obs (some args) bs percdamp chol3 ws
      = compress thr obs (some args) c percdamp chol3 ws := by
  rcases hws : ws.H with _ | H0
  · simp only [compress, hws]
  · simp only [compress, hws]
    rcases hch : chol3 (dampH percdamp (deadMaskH
        (if args.strategy = QuantizationStrategy.group ∧
            (args.actorder = ActOrder.group ∨ args.actorder = ActOrder.weight)
          then (applyActivationOrdering ws.weight H0).Hp else H0))) with _ | Hinv
    · simp only [hch]
    · simp only [hch]
      have hQind : ∀ (g1 : Fin c → ℕ) (i : Fin c) (s1 s2 : Cols r c) (w : Vec r),
          strategyQuantizer obs g1 args.strategy i s1 w
            = strategyQuantizer obs g1 args.strategy i s2 w := by
        rcases hstrat with h | h <;> rw [h] <;> exact fun g1 i s1 s2 w => rfl
      rw [gptqScan_W_blocksize_inv _ _ _ bs c _ hbs hc (hQind _)]

/-! ## Concrete instances used by scenario theorems and counterexamples -/

/-- Modelled from the spec (§4.1): a concrete GROUP-strategy observer
conforming to the stated contract — per output row, the scale is computed
from the full current group slice (symmetric min-max over the slice, one
quantization level on each side of zero), and quantize-dequantize maps the
value onto the grid `{-s, 0, s}`.  The TENSOR/CHANNEL maps are the identity
(they are irrelevant to the GROUP counterexample). -/
def exObs : Observer 1 Unit :=
  { fqTensor := fun w => w,
    fqChannel := fun w => w,
    fqGroup := fun slice w => fun x =>
      let s := (slice.map fun v => |v x|).foldr max 0
      if s = 0 then 0 else s * ((max (-1) (min 1 (round (w x / s))) : ℤ) : ℚ),
    scale := (),
    zero_point := () }

/-- The 2-column Hessian whose dead-masked, damped form (with
`percdamp = 1/100`) is exactly `[[2, -1], [-1, 1]]`, a symmetric
positive-definite matrix with the exact rational factor
`chol((H²)⁻¹, upper) = [[1, 1], [0, 1]]`. -/
def exH1 : Sq 2 := ![![401/202, -1], ![-1, 199/202]]

/-- The upper-triangular factor of the inverse of `dampH (1/100) exH1`. -/
def exU1 : Sq 2 := ![![1, 1], ![0, 1]]

/-- A 1×2 weight matrix `[2, 3]` (column-major). -/
def exW1 : Cols 1 2 := fun k _ => if k = 0 then 2 else 3

/-- A session state holding `exW1` and `exH1`. -/
def exWs1 : WrapperState 1 2 Unit :=
  { weight := exW1, weight_scale := (), weight_zero_point := (),
    weight_g_idx := none, H := some exH1, n_samples := 1 }

/-- GROUP strategy over both columns (group_size 2), no activation ordering. -/
def exQaGroup : QArgs := ⟨QuantizationStrategy.group, 2, ActOrder.noOrder⟩

/-- C1 (counterexample): with the GROUP strategy the blockwise solver is NOT
block-size invariant.  On the SPD damped Hessian `[[2, -1], [-1, 1]]` (whose
factorization hypothesis is checked in the first conjunct), weight `[2, 3]`
and a spec-conformant group observer, `blocksize = 2 = columns` quantizes the
weight to `[3, 3]` while `blocksize = 1` gives `[3, 4]`: the group
quantization parameters are recomputed from the outer weight matrix, which is
updated only at block boundaries. -/
theorem C1_counterexample_blocksize_group :
    IsCholInvFactor (dampH (1/100) (deadMaskH exH1)) exU1 ∧
    (compress (1/20) exObs (some exQaGroup) 2 (1/100)
        (fun _ => some exU1) exWs1).1.weight
      ≠ (compress (1/20) exObs (some exQaGroup) 1 (1/100)
        (fun _ => some exU1) exWs1).1.weight := by
  unfold IsCholInvFactor gramUT
  with_unfolding_all decide

/-! ## C2: the Hessian accumulator invariant -/

/-- The fold of a calibration history through `addBatchCore`. -/
def foldBatches (l : List (ℕ × List (Vec c))) (st : HState c) : HState c :=
  l.foldl (fun st p => addBatchCore st p.1 p.2) st

theorem foldBatches_inv :
    ∀ (l : List (ℕ × List (Vec c))) (st : HState c) (S : Sq c),
    (∀ p ∈ l, 0 < p.1) →
    (st.n_samples = 0 → ∀ i j, S i j = 0) →
    (∀ i j, st.H i j = (2 / (st.n_samples : ℚ)) * S i j) →
    (foldBatches l st).n_samples = st.n_samples + (l.map Prod.fst).sum ∧
    (∀ i j, (foldBatches l st).H i j =
      (2 / ((st.n_samples + (l.map Prod.fst).sum : ℕ) : ℚ)) *
        (S i j + ((l.map fun p => (p.2.map fun v => v i * v j).sum).sum))) := by
  intro l
  induction l with
  | nil =>
    intro st S hb hS0 hH
    refine ⟨by simp [foldBatches], fun i j => ?_⟩
    simp only [List.map_nil, List.sum_nil, add_zero, foldBatches, List.foldl_nil]
    exact hH i j
  | cons p t ih =>
    intro st S hb hS0 hH
    have hbp : 0 < p.1 := hb p (List.mem_cons_self p t)
    have hres := ih (addBatchCore st p.1 p.2)
      (fun i j => S i j + (p.2.map fun v => v i * v j).sum)
      (fun q hq => hb q (List.mem_cons_of_mem p hq))
      (fun hz => absurd hz (by simp only [addBatchCore]; omega))
      (fun i j => by
        simp only [addBatchCore]
        rw [hH i j]
        rcases Nat.eq_zero_or_pos st.n_samples with hn | hn
        · have hS := hS0 hn i j
          rw [hn, hS]
          push_cast
          ring
        · have h1 : ((st.n_samples : ℚ)) ≠ 0 := Nat.cast_ne_zero.mpr (by omega)
          have h2 : (((st.n_samples + p.1 : ℕ) : ℚ)) ≠ 0 := Nat.cast_ne_zero.mpr (by omega)
          push_cast at h2 ⊢
          field_simp
          ring)
    constructor
    · rw [show foldBatches (p :: t) st = foldBatches t (addBatchCore st p.1 p.2) from rfl,
        hres.1]
      simp only [addBatchCore, List.map_cons, List.sum_cons]
      omega
    · intro i j
      rw [show foldBatches (p :: t) st = foldBatches t (addBatchCore st p.1 p.2) from rfl,
        hres.2 i j]
      simp only [addBatchCore, List.map_cons, List.sum_cons]
      rw [show st.n_samples + p.1 + (t.map Prod.fst).sum
        = st.n_samples + (p.1 + (t.map Prod.fst).sum) by omega]
      ring

/-- C2: starting from `H = 0`, `n_samples = 0` at session creation, after any
finite sequence of `add_batch` updates with reshaped input matrices
`X_1 .. X_k` (each given as its list of token rows) and positive batch counts
`b_1 .. b_k`, the state satisfies `n = b_1 + ... + b_k` and
`H i j = (2 / n) * Σ_m (X_m · X_mᵗ) i j`; each step performs
`H ← H·n/(n+b)`, `n ← n+b`, `H ← H + (2/n)·X·Xᵗ`. -/
theorem C2_hessian_accumulator_invariant (c : ℕ)
    (l : List (ℕ × List (Vec c))) (hb : ∀ p ∈ l, 0 < p.1) :
    (foldBatches l (initHState c)).n_samples = (l.map Prod.fst).sum ∧
    (∀ i j, (foldBatches l (initHState c)).H i j =
      (2 / (((l.map Prod.fst).sum : ℕ) : ℚ)) *
        ((l.map fun p => (p.2.map fun v => v i * v j).sum).sum)) := by
  have hres := foldBatches_inv l (initHState c) (fun _ _ => 0) hb
    (fun _ i j => rfl) (fun i j => by simp [initHState])
  refine ⟨by rw [hres.1]; simp [initHState], fun i j => ?_⟩
  rw [hres.2 i j]
  simp [initHState]

/-- C2 witness: a concrete two-batch history on two columns, with batch
counts 1 and 2 and three total token rows. -/
theorem C2_witness :
    (∀ p ∈ [((1 : ℕ), [![(0:ℚ), 0]]), ((2 : ℕ), [![(1:ℚ), 2], ![(3:ℚ), 4]])], 0 < p.1) ∧
    (foldBatches [((1 : ℕ), [![(0:ℚ), 0]]), ((2 : ℕ), [![(1:ℚ), 2], ![(3:ℚ), 4]])]
      (initHState 2)).n_samples = 3 := by
  constructor
  · with_unfolding_all decide
  · exact (C2_hessian_accumulator_invariant 2 _ (by with_unfolding_all decide)).1

/-! ## C10: sample counting at the `add_batch` interface -/

/-- C10: `n_samples` is incremented by the leading dimension read after the
2-D unsqueeze — `1` for a 2-D input `[t, columns]` regardless of `t`, and `b`
for a 3-D input `[b, t, columns]` — while the number of input vectors entering
the `X·Xᵗ` accumulation is `t` resp. `b*t`: `n_samples` counts batches, not
observed vectors. -/
theorem C10_sample_counting (c : ℕ) (st : HState c) (t : ℕ) (x : Fin t → Vec c)
    (b t2 : ℕ) (y : Fin b → Fin t2 → Vec c) :
    tmpOf (Inp.dim2 t x) = 1 ∧
    tmpOf (Inp.dim3 b t2 y) = b ∧
    (add_batch st (Inp.dim2 t x)).n_samples = st.n_samples + 1 ∧
    (add_batch st (Inp.dim3 b t2 y)).n_samples = st.n_samples + b ∧
    (rowsOf (Inp.dim2 t x)).length = t ∧
    (rowsOf (Inp.dim3 b t2 y)).length = b * t2 := by
  refine ⟨rfl, rfl, rfl, rfl, by simp [rowsOf], ?_⟩
  simp only [rowsOf, List.length_flatten, List.map_map]
  rw [List.map_congr_left (g := fun _ => t2) (by intro a _; simp)]
  simp [List.map_const', mul_comm]

/-! ## C4: the permutation round trip -/

/-- C4: for every Hessian `H` and weight `W`, the permutation
`perm = argsort(diag(H), descending)` and `invperm = argsort(perm)` computed
by `_apply_activation_ordering` satisfy `invperm[perm[i]] = i` (and
`perm[invperm[j]] = j`), and applying the column permutation to `W` (and the
row-and-column permutation to `H`) followed by `invperm` returns `W` and `H`
exactly. -/
theorem C4_permutation_round_trip {r c : ℕ} (W : Cols r c) (H : Sq c) :
    (∀ i, (applyActivationOrdering W H).invperm
      ((applyActivationOrdering W H).perm i) = i) ∧
    (∀ j, (applyActivationOrdering W H).perm
      ((applyActivationOrdering W H).invperm j) = j) ∧
    ((fun j => (applyActivationOrdering W H).Wp
      ((applyActivationOrdering W H).invperm j)) = W) ∧
    ((fun i k => (applyActivationOrdering W H).Hp
      ((applyActivationOrdering W H).invperm i)
      ((applyActivationOrdering W H).invperm k)) = H) := by
  have hbij : Function.Bijective (argsortDesc fun i => H i i) :=
    argsortDesc_bijective _
  have h1 : ∀ j, (argsortDesc fun i => H i i)
      (argsortAsc (argsortDesc fun i => H i i) j) = j :=
    apply_argsortAsc _ hbij
  have h2 : ∀ i, argsortAsc (argsortDesc fun i => H i i)
      ((argsortDesc fun i => H i i) i) = i :=
    argsortAsc_apply _ hbij
  exact ⟨h2, h1, funext fun j => by simp [applyActivationOrdering, h1 j],
    funext fun i => funext fun k => by simp [applyActivationOrdering, h1 i, h1 k]⟩

/-! ## C5: the GROUP activation-ordering scenario -/

/-- The identity matrix on four columns, standing in for the factorization
result in the C5 scenario (the persisted group-index map does not depend on
it). -/
def idSq4 : Sq 4 := fun i k => if i = k then 1 else 0

/-- Hessian with diagonal `[0.1, 0.9, 0.5, 0.2]` and zero off-diagonals. -/
def ex5H : Sq 4 := fun i k => if i = k then ![1/10, 9/10, 1/2, 1/5] i else 0

/-- A 1×4 weight with nonzero entries. -/
def ex5W : Cols 1 4 := fun k _ => ![(5 : ℚ), 6, 7, 8] k

/-- Session state for the C5 scenario. -/
def ex5Ws : WrapperState 1 4 Unit :=
  { weight := ex5W, weight_scale := (), weight_zero_point := (),
    weight_g_idx := none, H := some ex5H, n_samples := 1 }

/-- C5: on 4 columns with `group_size = 2` and Hessian diagonal
`[0.1, 0.9, 0.5, 0.2]`, `compress` with `actorder = GROUP` computes the
permutation `[1, 2, 3, 0]`; the persisted `weight_g_idx` after compression
and un-permutation is `[1, 0, 0, 1]` — each original column is assigned the
group of its position in the permuted order — which differs from the identity
map `[0, 0, 1, 1]`. -/
theorem C5_group_actorder_scenario :
    (applyActivationOrdering ex5W ex5H).perm = ![1, 2, 3, 0] ∧
    (compress (1/20) exObs
        (some ⟨QuantizationStrategy.group, 2, ActOrder.group⟩) 128 (1/100)
        (fun _ => some idSq4) ex5Ws).1.weight_g_idx = some ![1, 0, 0, 1] ∧
    (compress (1/20) exObs
        (some ⟨QuantizationStrategy.group, 2, ActOrder.group⟩) 128 (1/100)
        (fun _ => some idSq4) ex5Ws).1.weight_g_idx
      ≠ some (fun k : Fin 4 => (k : ℕ) / 2) := by
  have hs : (compress (1/20) exObs
      (some ⟨QuantizationStrategy.group, 2, ActOrder.group⟩) 128 (1/100)
      (fun _ => some idSq4) ex5Ws).1.weight_g_idx.isSome = true := by
    with_unfolding_all decide
  have hv : (compress (1/20) exObs
      (some ⟨QuantizationStrategy.group, 2, ActOrder.group⟩) 128 (1/100)
      (fun _ => some idSq4) ex5Ws).1.weight_g_idx.getD (fun _ => 0)
      = ![1, 0, 0, 1] := by
    with_unfolding_all decide
  obtain ⟨g, hg⟩ := Option.isSome_iff_exists.mp hs
  rw [hg, Option.getD_some] at hv
  have hEq : (compress (1/20) exObs
      (some ⟨QuantizationStrategy.group, 2, ActOrder.group⟩) 128 (1/100)
      (fun _ => some idSq4) ex5Ws).1.weight_g_idx = some ![1, 0, 0, 1] := by
    rw [hg, hv]
  refine ⟨by with_unfolding_all decide, hEq, ?_⟩
  rw [hEq]
  intro h
  have h2 : (![1, 0, 0, 1] : Fin 4 → ℕ) = fun k : Fin 4 => (k : ℕ) / 2 :=
    Option.some_injective _ h
  have h3 := congrFun h2 0
  revert h3
  with_unfolding_all decide

/-! ## C6: unsupported strategy is a fatal error -/

/-- C6: for a quantization-configured layer with at least one column, if the
configured strategy is not TENSOR, CHANNEL or GROUP, `compress` raises the
`ValueError` of lines 257-261 to its caller (the error value is returned,
never swallowed); `g` stands for any successful factorization outcome. -/
theorem C6_unsupported_strategy_fatal {r c : ℕ} {α : Type}
    (thr : ℚ) (obs : Observer r α) (args : QArgs) (bs : ℕ) (percdamp : ℚ)
    (g : Sq c → Sq c) (ws : WrapperState r c α) (H0 : Sq c)
    (hH : ws.H = some H0)
    (hstr : supportedStrategy args.strategy = false)
    (hc : 0 < c) :
    (compress thr obs (some args) bs percdamp (fun M => some (g M)) ws).2
      = some GPTQError.unsupportedStrategy := by
  simp only [compress, hH]
  rw [if_pos ⟨hstr, hc⟩]

/-- A minimal one-column session. -/
def exWs7 : WrapperState 1 1 Unit :=
  { weight := fun _ _ => 1, weight_scale := (), weight_zero_point := (),
    weight_g_idx := none, H := some (fun _ _ => 1), n_samples := 1 }

/-- C6 witness: a layer configured with the BLOCK strategy. -/
theorem C6_witness :
    exWs7.H = some (fun _ _ => 1) ∧
    supportedStrategy QuantizationStrategy.block = false ∧ 0 < 1 ∧
    (compress (1/20) exObs
        (some ⟨QuantizationStrategy.block, 1, ActOrder.noOrder⟩) 128 (1/100)
        (fun M => some (id M)) exWs7).2 = some GPTQError.unsupportedStrategy :=
  ⟨rfl, rfl, Nat.one_pos,
    C6_unsupported_strategy_fatal (1/20) exObs _ 128 (1/100) id exWs7 _ rfl rfl
      Nat.one_pos⟩

/-! ## C7: state misuse -/

/-- C7 (counterexample): the session performs no state-machine checks.
`free()` before any compression succeeds (first conjunct), and a second
`compress()` on an already-compressed (but unreleased) session also proceeds
without any error (third conjunct) — both contradict the claim that these
fail loudly.  The constant factorization outcome reflects that
`torch.linalg.cholesky` also succeeds on the second call: it only reads the
lower triangle of the damped buffer, which after the first call holds the
upper-triangular `Hinv`, i.e. a positive diagonal. -/
theorem C7_counterexample_no_state_guard :
    (free exWs7).2 = none ∧
    (compress (1/20) exObs
        (some ⟨QuantizationStrategy.tensor, 1, ActOrder.noOrder⟩) 128 (1/100)
        (fun _ => some (fun _ _ => 1)) exWs7).2 = none ∧
    (compress (1/20) exObs
        (some ⟨QuantizationStrategy.tensor, 1, ActOrder.noOrder⟩) 128 (1/100)
        (fun _ => some (fun _ _ => 1))
        (compress (1/20) exObs
          (some ⟨QuantizationStrategy.tensor, 1, ActOrder.noOrder⟩) 128 (1/100)
          (fun _ => some (fun _ _ => 1)) exWs7).1).2 = none := by
  refine ⟨?_, ?_, ?_⟩ <;> with_unfolding_all decide

/-- C7 (amended): what does fail loudly is using a *released* session:
`compress()` on a session whose Hessian buffer has been deleted raises
`AttributeError` when it first touches `self.H` (for a quantization-configured
layer), and so does a second `free()`. -/
theorem C7_amended_released_session_fails {r c : ℕ} {α : Type}
    (thr : ℚ) (obs : Observer r α) (args : QArgs) (bs : ℕ) (percdamp : ℚ)
    (chol3 : Sq c → Option (Sq c)) (ws : WrapperState r c α)
    (hH : ws.H = none) :
    (compress thr obs (some args) bs percdamp chol3 ws).2
        = some GPTQError.attributeError ∧
    (free ws).2 = some GPTQError.attributeError := by
  constructor
  · simp only [compress, hH]
  · simp only [free, hH]

/-- C7 amended witness: the released session obtained by freeing `exWs7`. -/
theorem C7_amended_witness :
    (free exWs7).1.H = none ∧
    (compress (1/20) exObs
        (some ⟨QuantizationStrategy.tensor, 1, ActOrder.noOrder⟩) 128 (1/100)
        (fun _ => some (fun _ _ => 1)) (free exWs7).1).2
      = some GPTQError.attributeError ∧
    (free (free exWs7).1).2 = some GPTQError.attributeError := by
  refine ⟨rfl, ?_, ?_⟩
  · exact (C7_amended_released_session_fails (1/20) exObs _ 128 (1/100) _ _ rfl).1
  · exact (C7_amended_released_session_fails (1/20) exObs
      ⟨QuantizationStrategy.tensor, 1, ActOrder.noOrder⟩ 128 (1/100)
      (fun _ => some (fun _ _ => 1)) _ rfl).2

/-! ## C9: weight atomicity on error -/

/-- C9: `compress` operates on a clone of the layer weight and commits only
at the end, so when it raises the unsupported-strategy `ValueError` or the
factorization failure, the layer's persisted weight, scale, zero-point and
group-index parameters (and the sample count) are exactly unchanged, while
the in-memory Hessian buffer is still present (it retains its in-place
mutations and is not restored). -/
theorem C9_weight_atomicity_on_error {r c : ℕ} {α : Type}
    (thr : ℚ) (obs : Observer r α) (qa : Option QArgs) (bs : ℕ)
    (percdamp : ℚ) (chol3 : Sq c → Option (Sq c)) (ws : WrapperState r c α)
    (e : GPTQError)
    (herr : (compress thr obs qa bs percdamp chol3 ws).2 = some e)
    (he : e = GPTQError.unsupportedStrategy ∨ e = GPTQError.choleskyFailure) :
    (compress thr obs qa bs percdamp chol3 ws).1.weight = ws.weight ∧
    (compress thr obs qa bs percdamp chol3 ws).1.weight_scale = ws.weight_scale ∧
    (compress thr obs qa bs percdamp chol3 ws).1.weight_zero_point
      = ws.weight_zero_point ∧
    (compress thr obs qa bs percdamp chol3 ws).1.weight_g_idx = ws.weight_g_idx ∧
    (compress thr obs qa bs percdamp chol3 ws).1.n_samples = ws.n_samples ∧
    (compress thr obs qa bs percdamp chol3 ws).1.H.isSome = true := by
  rcases qa with _ | args
  · simp only [compress] at herr
    exact Option.noConfusion herr
  · rcases hws : ws.H with _ | H0
    · simp only [compress, hws] at herr
      injection herr with h1
      rcases he with he | he <;> rw [← h1] at he <;> exact absurd he (by decide)
    · simp only [compress, hws] at herr ⊢
      rcases hch : chol3 (dampH percdamp (deadMaskH
          (if args.strategy = QuantizationStrategy.group ∧
              (args.actorder = ActOrder.group ∨ args.actorder = ActOrder.weight)
            then (applyActivationOrdering ws.weight H0).Hp else H0))) with _ | Hinv
      · simp only [hch] at herr ⊢
        simp
      · simp only [hch] at herr ⊢
        by_cases hcond : supportedStrategy args.strategy = false ∧ 0 < c
        · rw [if_pos hcond]
          simp
        · rw [if_neg hcond] at herr
          simp at herr

/-- C9 witness: the concrete unsupported-strategy error of `C6_witness`,
with every layer parameter checked unchanged. -/
theorem C9_witness :
    ((compress (1/20) exObs
        (some ⟨QuantizationStrategy.block, 1, ActOrder.noOrder⟩) 128 (1/100)
        (fun M => some M) exWs7).2 = some GPTQError.unsupportedStrategy) ∧
    (compress (1/20) exObs
        (some ⟨QuantizationStrategy.block, 1, ActOrder.noOrder⟩) 128 (1/100)
        (fun M => some M) exWs7).1.weight = exWs7.weight ∧
    (compress (1/20) exObs
        (some ⟨QuantizationStrategy.block, 1, ActOrder.noOrder⟩) 128 (1/100)
        (fun M => some M) exWs7).1.H.isSome = true := by
  have herr : (compress (1/20) exObs
      (some ⟨QuantizationStrategy.block, 1, ActOrder.noOrder⟩) 128 (1/100)
      (fun M => some M) exWs7).2 = some GPTQError.unsupportedStrategy := by
    with_unfolding_all decide
  have h := C9_weight_atomicity_on_error (1/20) exObs
    (some ⟨QuantizationStrategy.block, 1, ActOrder.noOrder⟩) 128 (1/100)
    (fun M => some M) exWs7 GPTQError.unsupportedStrategy herr (Or.inl rfl)
  exact ⟨herr, h.1, h.2.2.2.2.2⟩

/-! ## C8: sparsity preservation -/

theorem list_foldl_preserve {σ β : Type} (P : σ → Prop) (f : σ → β → σ)
    (h : ∀ s b, P s → P (f s b)) : ∀ (l : List β) (s : σ), P s → P (l.foldl f s) := by
  intro l
  induction l with
  | nil => exact fun s hs => hs
  | cons b t ih => exact fun s hs => ih _ (h s b hs)

/-- Entries at which the sparsity mask is zero are never perturbed by the
blockwise scan: neither intra-block propagation, nor inter-block propagation,
nor the quantized write-back (for a quantizer that maps zero entries to zero). -/
theorem gptqScan_preserves_zeros (Qz : Quantizer r c) (Hinv : Sq c)
    (mask : Cols r c) (bs : ℕ) (W0 : Cols r c)
    (hQz : ∀ i snap w x, w x = 0 → Qz i snap w x = 0)
    (hW0 : ∀ k x, mask k x = 0 → W0 k x = 0) :
    ∀ k x, mask k x = 0 → (gptqScan Qz Hinv mask bs W0).W k x = 0 := by
  have houter : ∀ (st : ScanSt r c) (i1 : ℕ),
      (∀ k x, mask k x = 0 → st.W k x = 0) →
      (∀ k x, mask k x = 0 → (blockStep Qz Hinv mask bs st i1).W k x = 0) := by
    intro st i1 hst
    have hinner : ∀ (inner : InnerSt r c) (i : Fin c),
        ((∀ k x, mask k x = 0 → inner.W1 k x = 0) ∧
         (∀ k x, mask k x = 0 → inner.Q1 k x = 0)) →
        ((∀ k x, mask k x = 0 → (qcStep Qz Hinv mask st.W (min (i1 + bs) c) inner i).W1 k x = 0) ∧
         (∀ k x, mask k x = 0 → (qcStep Qz Hinv mask st.W (min (i1 + bs) c) inner i).Q1 k x = 0)) := by
      intro inner i hP
      constructor
      · intro k x hm
        simp only [qcStep]
        by_cases hcond : i ≤ k ∧ (k : ℕ) < min (i1 + bs) c
        · rw [if_pos hcond, hP.1 k x hm, hm]
          ring
        · rw [if_neg hcond]
          exact hP.1 k x hm
      · intro k x hm
        simp only [qcStep]
        by_cases hk : k = i
        · subst hk
          rw [Function.update_same]
          exact hQz k st.W (inner.W1 k) x (hP.1 k x hm)
        · rw [Function.update_noteq hk]
          exact hP.2 k x hm
    have hres := list_foldl_preserve
      (fun inner : InnerSt r c =>
        (∀ k x, mask k x = 0 → inner.W1 k x = 0) ∧
        (∀ k x, mask k x = 0 → inner.Q1 k x = 0))
      (qcStep Qz Hinv mask st.W (min (i1 + bs) c))
      hinner (colsIdx c i1 (min (i1 + bs) c - i1))
      ⟨st.W, fun _ _ => 0, fun _ _ => 0, fun _ _ => 0⟩
      ⟨fun k x hm => hst k x hm, fun _ _ _ => rfl⟩
    intro k x hm
    simp only [blockStep]
    by_cases hk1 : (k : ℕ) < i1
    · rw [if_pos hk1]
      exact hst k x hm
    · rw [if_neg hk1]
      by_cases hk2 : (k : ℕ) < min (i1 + bs) c
      · rw [if_pos hk2]
        exact hres.2 k x hm
      · rw [if_neg hk2, hst k x hm, hm]
        ring
  intro k x hm
  exact list_foldl_preserve
    (fun st : ScanSt r c => ∀ k x, mask k x = 0 → st.W k x = 0)
    (blockStep Qz Hinv mask bs) houter (blockStarts c bs)
    ⟨W0, fun _ _ => 0, fun _ => 0⟩ hW0 k x hm

/-- The number of zero entries is unchanged by a bijective column
permutation. -/
theorem countZeros_perm (W : Cols r c) (p : Fin c → Fin c)
    (hp : Function.Bijective p) :
    countZeros (fun k => W (p k)) = countZeros W := by
  unfold countZeros
  exact Fintype.sum_bijective p hp _ _ fun k => rfl

theorem sparsityOf_perm (W : Cols r c) (p : Fin c → Fin c)
    (hp : Function.Bijective p) :
    sparsityOf (fun k => W (p k)) = sparsityOf W := by
  unfold sparsityOf
  rw [countZeros_perm W p hp]

/-- C8: whenever the fraction of zero entries of the layer weight reaches the
sparsity threshold, so that the zero-preservation mask is active, every entry
of `W` that was originally zero is exactly zero in the final compressed weight
produced by `compress` — intra-block error propagation, cross-block error
propagation and the quantized write-back never make an originally-zero entry
nonzero.  The observer hypotheses state that each quantize-dequantize map
sends zero entries to zero (true of `fake_quantize`, whose grid contains 0). -/
theorem C8_sparsity_preservation {r c : ℕ} {α : Type}
    (thr : ℚ) (obs : Observer r α) (qa : Option QArgs) (bs : ℕ)
    (percdamp : ℚ) (chol3 : Sq c → Option (Sq c)) (ws : WrapperState r c α)
    (hsp : thr ≤ sparsityOf ws.weight)
    (hzT : ∀ w x, w x = 0 → obs.fqTensor w x = 0)
    (hzC : ∀ w x, w x = 0 → obs.fqChannel w x = 0)
    (hzG : ∀ s w x, w x = 0 → obs.fqGroup s w x = 0) :
    ∀ (j : Fin c) (x : Fin r), ws.weight j x = 0 →
      (compress thr obs qa bs percdamp chol3 ws).1.weight j x = 0 := by
  intro j x hjx
  rcases qa with _ | args
  · simpa only [compress] using hjx
  · rcases hws : ws.H with _ | H0
    · simpa only [compress, hws] using hjx
    · simp only [compress, hws]
      rcases hch : chol3 (dampH percdamp (deadMaskH
          (if args.strategy = QuantizationStrategy.group ∧
              (args.actorder = ActOrder.group ∨ args.actorder = ActOrder.weight)
            then (applyActivationOrdering ws.weight H0).Hp else H0))) with _ | Hinv
      · simpa only [hch] using hjx
      · simp only [hch]
        by_cases hcond : supportedStrategy args.strategy = false ∧ 0 < c
        · rw [if_pos hcond]
          exact hjx
        · rw [if_neg hcond]
          -- the success branch
          have hQz : ∀ (g1 : Fin c → ℕ) i snap w x2, w x2 = 0 →
              strategyQuantizer obs g1 args.strategy i snap w x2 = 0 := by
            intro g1 i snap w x2 hw
            cases hst : args.strategy <;> simp only [strategyQuantizer]
            · exact hzT w x2 hw
            · exact hzC w x2 hw
            · exact hzG _ w x2 hw
            · exact hw
            · exact hw
          by_cases hP : args.strategy = QuantizationStrategy.group ∧
              (args.actorder = ActOrder.group ∨ args.actorder = ActOrder.weight)
          · rw [if_pos hP, if_pos hP, if_pos hP]
            have hbij := argsortDesc_bijective (fun i => H0 i i)
            have hperm : ∀ jj, (applyActivationOrdering ws.weight H0).perm
                ((applyActivationOrdering ws.weight H0).invperm jj) = jj :=
              apply_argsortAsc _ hbij
            have hspP : thr ≤ sparsityOf (applyActivationOrdering ws.weight H0).Wp := by
              have : sparsityOf (applyActivationOrdering ws.weight H0).Wp
                  = sparsityOf ws.weight :=
                sparsityOf_perm ws.weight _ hbij
              rw [this]
              exact hsp
            have hmask : ∀ kk x2,
                (applyActivationOrdering ws.weight H0).Wp kk x2 = 0 →
                nzMask thr (applyActivationOrdering ws.weight H0).Wp kk x2 = 0 := by
              intro kk x2 hz
              unfold nzMask
              rw [if_pos hspP, if_pos hz]
            have hmaskz : ∀ kk x2,
                nzMask thr (applyActivationOrdering ws.weight H0).Wp kk x2 = 0 →
                (applyActivationOrdering ws.weight H0).Wp kk x2 = 0 := by
              intro kk x2 hz
              unfold nzMask at hz
              rw [if_pos hspP] at hz
              by_cases hwz : (applyActivationOrdering ws.weight H0).Wp kk x2 = 0
              · exact hwz
              · rw [if_neg hwz] at hz
                exact absurd hz one_ne_zero
          -- entry (invperm j, x) of the permuted weight is the original entry
            have hentry : (applyActivationOrdering ws.weight H0).Wp
                ((applyActivationOrdering ws.weight H0).invperm j) x = 0 := by
              show ws.weight ((applyActivationOrdering ws.weight H0).perm
                ((applyActivationOrdering ws.weight H0).invperm j)) x = 0
              rw [hperm j]
              exact hjx
            exact gptqScan_preserves_zeros _ _ _ bs _ (hQz _)
              (fun k x2 hm => by
                unfold deadMaskW
                by_cases hd : (applyActivationOrdering ws.weight H0).Hp k k = 0
                · rw [if_pos hd]
                · rw [if_neg hd]
                  exact hmaskz k x2 hm)
              _ x (hmask _ x hentry)
          · rw [if_neg hP, if_neg hP, if_neg hP]
            have hmask : ∀ kk x2, ws.weight kk x2 = 0 →
                nzMask thr ws.weight kk x2 = 0 := by
              intro kk x2 hz
              unfold nzMask
              rw [if_pos hsp, if_pos hz]
            have hmaskz : ∀ kk x2, nzMask thr ws.weight kk x2 = 0 →
                ws.weight kk x2 = 0 := by
              intro kk x2 hz
              unfold nzMask at hz
              rw [if_pos hsp] at hz
              by_cases hwz : ws.weight kk x2 = 0
              · exact hwz
              · rw [if_neg hwz] at hz
                exact absurd hz one_ne_zero
            exact gptqScan_preserves_zeros _ _ _ bs _ (hQz _)
              (fun k x2 hm => by
                unfold deadMaskW
                by_cases hd : H0 k k = 0
                · rw [if_pos hd]
                · rw [if_neg hd]
                  exact hmaskz k x2 hm)
              j x (hmask j x hjx)

/-- A half-sparse 1×2 weight: column 0 is zero. -/
def ex8W : Cols 1 2 := fun k _ => if k = 0 then 0 else 5

/-- Session state for the C8 witness, with identity Hessian. -/
def ex8Ws : WrapperState 1 2 Unit :=
  { weight := ex8W, weight_scale := (), weight_zero_point := (),
    weight_g_idx := none, H := some (fun i k => if i = k then 1 else 0),
    n_samples := 1 }

/-- C8 witness: with threshold 1/2 and a weight whose zero fraction is
exactly 1/2, the originally-zero entry stays exactly zero. -/
theorem C8_witness :
    ((1 : ℚ)/2 ≤ sparsityOf ex8W) ∧ ex8W 0 0 = 0 ∧
    (compress (1/2) exObs
        (some ⟨QuantizationStrategy.tensor, 1, ActOrder.noOrder⟩) 128 (1/100)
        (fun M => some M) ex8Ws).1.weight 0 0 = 0 :=
  ⟨by with_unfolding_all decide, rfl,
    C8_sparsity_preservation (1/2) exObs
      (some ⟨QuantizationStrategy.tensor, 1, ActOrder.noOrder⟩) 128 (1/100)
      (fun M => some M) ex8Ws (by with_unfolding_all decide)
      (fun w x h => h) (fun w x h => h)
      (fun s w x h => by
        simp only [exObs, h, zero_div, round_zero]
        norm_num)
      0 0 rfl⟩

/-! ## C3: dead-column neutrality -/

/-- If an invertible matrix `A` has zero off-diagonal entries in row and
column `j`, so does its two-sided inverse `B`. -/
theorem inv_decoupled (A B : Sq c) (j : Fin c)
    (hAB : ∀ i k : Fin c, (∑ m : Fin c, A i m * B m k) = if i = k then 1 else 0)
    (hBA : ∀ i k : Fin c, (∑ m : Fin c, B i m * A m k) = if i = k then 1 else 0)
    (hrow : ∀ k, k ≠ j → A j k = 0) (hcol : ∀ i, i ≠ j → A i j = 0) :
    (∀ i, i ≠ j → B i j = 0) ∧ (∀ k, k ≠ j → B j k = 0) := by
  have hAjj : A j j ≠ 0 := by
    intro h0
    have hja := hBA j j
    rw [if_pos rfl, Finset.sum_eq_single j
      (fun b _ hb => by rw [hcol b hb, mul_zero])
      (fun h => absurd (Finset.mem_univ j) h), h0, mul_zero] at hja
    exact one_ne_zero hja.symm
  constructor
  · intro i hi
    have hs := hBA i j
    rw [if_neg hi, Finset.sum_eq_single j
      (fun b _ hb => by rw [hcol b hb, mul_zero])
      (fun h => absurd (Finset.mem_univ j) h)] at hs
    exact (mul_eq_zero.mp hs).resolve_right hAjj
  · intro k hk
    have hs := hAB j k
    rw [if_neg (fun he => hk he.symm), Finset.sum_eq_single j
      (fun b _ hb => by rw [hrow b hb, zero_mul])
      (fun h => absurd (Finset.mem_univ j) h)] at hs
    exact (mul_eq_zero.mp hs).resolve_left hAjj

/-- If the Gram matrix `Uᵗ·U` of an upper-triangular `U` with nonzero
diagonal has zero off-diagonal entries in row and column `j`, then `U` itself
has zero off-diagonal entries in row and column `j`. -/
theorem cholFactor_decoupled (U : Sq c) (j : Fin c)
    (hupper : ∀ i k : Fin c, (k : ℕ) < (i : ℕ) → U i k = 0)
    (hdiag : ∀ i, U i i ≠ 0)
    (hBcol : ∀ i, i ≠ j → gramUT U i j = 0)
    (hBrow : ∀ k, k ≠ j → gramUT U j k = 0) :
    (∀ i, i ≠ j → U i j = 0) ∧ (∀ k, k ≠ j → U j k = 0) := by
  have hcolAux : ∀ n, ∀ i : Fin c, (i : ℕ) = n → (i : ℕ) < (j : ℕ) → U i j = 0 := by
    intro n
    induction n using Nat.strong_induction_on with
    | _ n ih =>
      intro i hin hij
      have hne : i ≠ j := fun he => by rw [he] at hij; omega
      have hsum := hBcol i hne
      unfold gramUT at hsum
      rw [Finset.sum_eq_single i
        (fun b _ hb => by
          rcases lt_or_gt_of_ne hb with hlt | hgt
          · rw [ih (b : ℕ) (by omega) b rfl (by
              have : (b : ℕ) < (i : ℕ) := hlt
              omega), mul_zero]
          · rw [hupper b i hgt, zero_mul])
        (fun h => absurd (Finset.mem_univ i) h)] at hsum
      exact (mul_eq_zero.mp hsum).resolve_left (hdiag i)
  have hcolFull : ∀ i, i ≠ j → U i j = 0 := by
    intro i hi
    rcases lt_or_gt_of_ne hi with hlt | hgt
    · exact hcolAux (i : ℕ) i rfl hlt
    · exact hupper i j hgt
  refine ⟨hcolFull, fun k hk => ?_⟩
  rcases lt_or_gt_of_ne hk with hlt | hgt
  · exact hupper j k hlt
  · have hsum := hBrow k hk
    unfold gramUT at hsum
    rw [Finset.sum_eq_single j
      (fun b _ hb => by rw [hcolFull b hb, zero_mul])
      (fun h => absurd (Finset.mem_univ j) h)] at hsum
    exact (mul_eq_zero.mp hsum).resolve_left (hdiag j)

/-- Dead-column behaviour of the scan: if column `j` starts at zero, no error
flows into it (`Hinv[i, j] = 0` for `i ≠ j`), and the quantizer maps the zero
column to zero, then column `j` of the scanned weight is exactly zero and its
recorded residual is exactly zero. -/
theorem gptqScan_dead_column (Qz : Quantizer r c) (Hinv : Sq c)
    (mask : Cols r c) (bs : ℕ) (W0 : Cols r c) (j : Fin c)
    (hWj : ∀ x, W0 j x = 0)
    (hHcol : ∀ i, i ≠ j → Hinv i j = 0)
    (hq0 : ∀ snap w, (∀ x, w x = 0) → ∀ x, Qz j snap w x = 0) :
    (∀ x, (gptqScan Qz Hinv mask bs W0).W j x = 0) ∧
    (∀ x, (gptqScan Qz Hinv mask bs W0).Errs j x = 0) := by
  have houter : ∀ (st : ScanSt r c) (i1 : ℕ),
      ((∀ x, st.W j x = 0) ∧ (∀ x, st.Errs j x = 0)) →
      ((∀ x, (blockStep Qz Hinv mask bs st i1).W j x = 0) ∧
       (∀ x, (blockStep Qz Hinv mask bs st i1).Errs j x = 0)) := by
    intro st i1 hst
    have hinner : ∀ (inner : InnerSt r c) (i : Fin c),
        ((∀ x, inner.W1 j x = 0) ∧ (∀ x, inner.Q1 j x = 0) ∧
          (∀ x, inner.Err1 j x = 0)) →
        ((∀ x, (qcStep Qz Hinv mask st.W (min (i1 + bs) c) inner i).W1 j x = 0) ∧
         (∀ x, (qcStep Qz Hinv mask st.W (min (i1 + bs) c) inner i).Q1 j x = 0) ∧
         (∀ x, (qcStep Qz Hinv mask st.W (min (i1 + bs) c) inner i).Err1 j x = 0)) := by
      intro inner i hP
      by_cases hij : i = j
      · subst hij
        have hq : ∀ x, Qz i st.W (inner.W1 i) x = 0 := hq0 st.W _ hP.1
        refine ⟨fun x => ?_, fun x => ?_, fun x => ?_⟩
        · simp only [qcStep]
          by_cases hcond : i ≤ i ∧ (i : ℕ) < min (i1 + bs) c
          · rw [if_pos hcond, hP.1 x, hq x]
            ring
          · rw [if_neg hcond]
            exact hP.1 x
        · simp only [qcStep]
          rw [Function.update_same]
          exact hq x
        · simp only [qcStep]
          rw [Function.update_same, hP.1 x, hq x]
          ring
      · refine ⟨fun x => ?_, fun x => ?_, fun x => ?_⟩
        · simp only [qcStep]
          by_cases hcond : i ≤ j ∧ (j : ℕ) < min (i1 + bs) c
          · rw [if_pos hcond, hP.1 x, hHcol i hij]
            ring
          · rw [if_neg hcond]
            exact hP.1 x
        · simp only [qcStep]
          rw [Function.update_noteq (fun he => hij he.symm)]
          exact hP.2.1 x
        · simp only [qcStep]
          rw [Function.update_noteq (fun he => hij he.symm)]
          exact hP.2.2 x
    have hres := list_foldl_preserve
      (fun inner : InnerSt r c =>
        (∀ x, inner.W1 j x = 0) ∧ (∀ x, inner.Q1 j x = 0) ∧
          (∀ x, inner.Err1 j x = 0))
      (qcStep Qz Hinv mask st.W (min (i1 + bs) c)) hinner
      (colsIdx c i1 (min (i1 + bs) c - i1))
      ⟨st.W, fun _ _ => 0, fun _ _ => 0, fun _ _ => 0⟩
      ⟨hst.1, fun _ => rfl, fun _ => rfl⟩
    constructor
    · intro x
      simp only [blockStep]
      by_cases hk1 : (j : ℕ) < i1
      · rw [if_pos hk1]
        exact hst.1 x
      · rw [if_neg hk1]
        by_cases hk2 : (j : ℕ) < min (i1 + bs) c
        · rw [if_pos hk2]
          exact hres.2.1 x
        · rw [if_neg hk2, hst.1 x,
            list_sum_map_zero (fun i hi => by
              have hmem := mem_colsIdx hi
              have hij : i ≠ j := fun he => by rw [he] at hmem; omega
              rw [hHcol i hij, mul_zero])]
          ring
    · intro x
      simp only [blockStep]
      by_cases hk : i1 ≤ (j : ℕ) ∧ (j : ℕ) < min (i1 + bs) c
      · rw [if_pos hk]
        exact hres.2.2 x
      · rw [if_neg hk]
        exact hst.2 x
  have hfin := list_foldl_preserve
    (fun st : ScanSt r c => (∀ x, st.W j x = 0) ∧ (∀ x, st.Errs j x = 0))
    (blockStep Qz Hinv mask bs) houter (blockStarts c bs)
    ⟨W0, fun _ _ => 0, fun _ => 0⟩ ⟨hWj, fun _ => rfl⟩
  exact hfin

/-- C3: for every weight and accumulated Hessian, if column `j` has
`H[j,j] = 0` and zero off-diagonal entries in its row and column (it was
never observed), then `compress` sets `H[j,j]` to 1 and zeroes `W[:, j]`
before the scan, the final quantized weight has column `j` exactly zero, and
the residual propagated from column `j` to every other column is exactly
zero.  The factorization outcome `U` is constrained by `IsCholInvFactor`,
and the quantizer is assumed to map the zero column to the zero column
(true of `fake_quantize` with an in-range zero point). -/
theorem C3_dead_column_neutrality {r c : ℕ} {α : Type}
    (thr : ℚ) (obs : Observer r α) (args : QArgs) (bs : ℕ) (percdamp : ℚ)
    (chol3 : Sq c → Option (Sq c)) (ws : WrapperState r c α)
    (H0 U : Sq c) (j : Fin c)
    (hws : ws.H = some H0)
    (hord : args.actorder = ActOrder.noOrder)
    (hsupp : supportedStrategy args.strategy = true)
    (hjj : H0 j j = 0)
    (hrow : ∀ k, k ≠ j → H0 j k = 0)
    (hcol : ∀ i, i ≠ j → H0 i j = 0)
    (hch : chol3 (dampH percdamp (deadMaskH H0)) = some U)
    (hfac : IsCholInvFactor (dampH percdamp (deadMaskH H0)) U)
    (hq0 : ∀ snap w, (∀ x, w x = 0) → ∀ x,
      strategyQuantizer obs (fun k => (k : ℕ) / args.group_size)
        args.strategy j snap w x = 0) :
    deadMaskH H0 j j = 1 ∧
    (∀ x, deadMaskW H0 ws.weight j x = 0) ∧
    (∀ x, (compress thr obs (some args) bs percdamp chol3 ws).1.weight j x = 0) ∧
    (∀ x, (gptqScan (strategyQuantizer obs (fun k => (k : ℕ) / args.group_size)
        args.strategy) U (nzMask thr ws.weight) bs
        (deadMaskW H0 ws.weight)).Errs j x = 0) := by
  obtain ⟨hup, hdiag, hAB, hBA⟩ := hfac
  -- the damped, dead-masked Hessian is still decoupled at `j`
  have hArow : ∀ k, k ≠ j → dampH percdamp (deadMaskH H0) j k = 0 := by
    intro k hk
    unfold dampH deadMaskH
    rw [if_neg (fun (he : j = k) => hk he.symm),
      if_neg (fun (hand : j = k ∧ H0 k k = 0) => hk hand.1.symm), hrow k hk]
  have hAcol : ∀ i, i ≠ j → dampH percdamp (deadMaskH H0) i j = 0 := by
    intro i hi
    unfold dampH deadMaskH
    rw [if_neg (fun he => hi he), if_neg (fun hand => hi hand.1), hcol i hi]
  have hgram := inv_decoupled (dampH percdamp (deadMaskH H0)) (gramUT U) j
    hAB hBA hArow hAcol
  have hU := cholFactor_decoupled U j hup hdiag hgram.1 hgram.2
  have hW1j : ∀ x, deadMaskW H0 ws.weight j x = 0 := by
    intro x
    unfold deadMaskW
    rw [if_pos hjj]
  have hscan := gptqScan_dead_column
    (strategyQuantizer obs (fun k => (k : ℕ) / args.group_size) args.strategy)
    U (nzMask thr ws.weight) bs (deadMaskW H0 ws.weight) j hW1j hU.1 hq0
  refine ⟨?_, hW1j, ?_, hscan.2⟩
  · unfold deadMaskH
    rw [if_pos ⟨rfl, hjj⟩]
  · -- reduce `compress` to the successful scan
    have hperm : (args.strategy = QuantizationStrategy.group ∧
        (ActOrder.noOrder = ActOrder.group ∨ ActOrder.noOrder = ActOrder.weight))
        = False := by simp
    have hgw : (args.strategy = QuantizationStrategy.group ∧
        ActOrder.noOrder = ActOrder.weight) = False := by simp
    have hsup2 : (supportedStrategy args.strategy = false ∧ 0 < c) = False := by
      simp [hsupp]
    intro x
    simp only [compress, hws, hord, hperm, hgw, hsup2, if_false, hch]
    exact hscan.1 x

/-- The 2-column Hessian of the C3 witness: column 0 is dead. -/
def exH3 : Sq 2 := ![![0, 0], ![0, 3]]

/-- The factor of `(dampH (33/32) (deadMaskH exH3))⁻¹ = diag(16/49, 16/81)`:
with `percdamp = 33/32`, the damped masked Hessian is `diag(49/16, 81/16)`,
which has the exact rational upper Cholesky inverse factor
`diag(4/7, 4/9)`. -/
def exU3 : Sq 2 := ![![4/7, 0], ![0, 4/9]]

/-- A 1×2 weight `[5, 7]` for the C3 witness. -/
def exW3 : Cols 1 2 := fun k _ => if k = 0 then 5 else 7

/-- Session state for the C3 witness. -/
def exWs3 : WrapperState 1 2 Unit :=
  { weight := exW3, weight_scale := (), weight_zero_point := (),
    weight_g_idx := none, H := some exH3, n_samples := 1 }

/-- C3 witness: the dead column 0 of `exH3` is zeroed and propagates no
error through a concrete compression. -/
theorem C3_witness :
    exH3 0 0 = 0 ∧
    IsCholInvFactor (dampH (33/32) (deadMaskH exH3)) exU3 ∧
    deadMaskH exH3 0 0 = 1 ∧
    (∀ x, (compress (1/20) exObs
        (some ⟨QuantizationStrategy.tensor, 1, ActOrder.noOrder⟩) 128 (33/32)
        (fun _ => some exU3) exWs3).1.weight 0 x = 0) := by
  have hfac : IsCholInvFactor (dampH (33/32) (deadMaskH exH3)) exU3 := by
    unfold IsCholInvFactor gramUT
    refine ⟨?_, ?_, ?_, ?_⟩ <;> with_unfolding_all decide
  have h := C3_dead_column_neutrality (1/20) exObs
    ⟨QuantizationStrategy.tensor, 1, ActOrder.noOrder⟩ 128 (33/32)
    (fun _ => some exU3) exWs3 exH3 exU3 0 rfl rfl rfl
    (by with_unfolding_all decide)
    (by with_unfolding_all decide)
    (by with_unfolding_all decide)
    rfl hfac
    (fun snap w hw x => hw x)
  exact ⟨by with_unfolding_all decide, hfac, h.1, h.2.2.1⟩

/-- C1 witness: concrete block-size invariance for the TENSOR strategy on a
1×2 layer, `blocksize = 1` against `blocksize = columns = 2`. -/
theorem C1_witness :
    ((0 : ℕ) < 1) ∧ ((0 : ℕ) < 2) ∧
    compress (1/20) exObs
        (some ⟨QuantizationStrategy.tensor, 1, ActOrder.noOrder⟩) 1 (1/100)
        (fun _ => some exU1) exWs1
      = compress (1/20) exObs
        (some ⟨QuantizationStrategy.tensor, 1, ActOrder.noOrder⟩) 2 (1/100)
        (fun _ => some exU1) exWs1 :=
  ⟨Nat.one_pos, by decide,
    C1_blocksize_invariance_tensor_channel (1/20) exObs
      ⟨QuantizationStrategy.tensor, 1, ActOrder.noOrder⟩ 1 (1/100)
      (fun _ => some exU1) exWs1 (Or.inl rfl) Nat.one_pos (by decide)⟩
